import Mathlib

/-!
Verification development for the cell-script evaluation pipeline
(scanner/parser → AST → dependency analysis → accumulator IR → interpreters,
plus the stack VM of `vm.rs`).

Modelling conventions:
* Rust `f64` values are modelled as `ℚ`.  All concrete programs appearing in
  the theorems below only compute with small dyadic rationals, on which IEEE-754
  double arithmetic is exact, so `ℚ` agrees bit-for-bit with `f64` there.
  (`NaN`/infinity behaviour of `/` and `%` at zero divisors is outside every
  theorem proved here.)
* Rust functions that can panic, return `Err`, or recurse without bound are
  embedded as fuelled total functions into the `Outcome` type below:
  `.ok` models a normal return, `.err` models an `anyhow` error (`bail!`),
  `.crash` models a Rust panic (slice index out of bounds, `unwrap` on `None`,
  `expect`, arithmetic underflow on `usize`), and `.fuelOut` is exhaustion of
  the fuel: a computation that diverges in Rust is one returning `.fuelOut`
  for every amount of fuel.
* `HashMap` values are modelled as association lists where `insert` conses the
  new binding on the front and `lookup` finds the first (hence latest) binding.
-/

namespace CellScript

/-- Result type of an embedded Rust computation; see the module comment. -/
inductive Outcome (α : Type) where
  | ok (a : α)
  | err (msg : String)
  | crash (msg : String)
  | fuelOut
  deriving DecidableEq

namespace Outcome

/-- Sequencing, used for the places where the Rust code uses `?`. -/
def bind {α β : Type} : Outcome α → (α → Outcome β) → Outcome β
  | .ok a, f => f a
  | .err m, _ => .err m
  | .crash m, _ => .crash m
  | .fuelOut, _ => .fuelOut

def isOk {α : Type} : Outcome α → Bool
  | .ok _ => true
  | _ => false

def isErr {α : Type} : Outcome α → Bool
  | .err _ => true
  | _ => false

def isCrash {α : Type} : Outcome α → Bool
  | .crash _ => true
  | _ => false

end Outcome

/-! ## Data model (`src/src/parser.rs`) -/

/-- `parser.rs`: comparison operators of a conditional. -/
inductive Operator where
  | equals
  | greater
  | greaterEqual
  | less
  | lessEqual
  deriving DecidableEq

/-- `parser.rs`: expressions.  Rust separates the leaf cases into
`Expr::Atom(Atom::Number | Atom::Ident | Atom::Call)`; here the three atom
cases are inlined as the constructors `num`, `ident` and `call`. -/
inductive Expr where
  | num (x : ℚ)
  | ident (name : String)
  | call (name : String) (arguments : List Expr)
  | add (l r : Expr)
  | mod (l r : Expr)
  | sub (l r : Expr)
  | mul (l r : Expr)
  | div (l r : Expr)
  | condition (lhs rhs : Expr) (op : Operator) (trueBranch falseBranch : Expr)

/-- `parser.rs`: a top-level node, `param NAME;` or `cell NAME: EXPR;`. -/
inductive Node where
  | param (name : String)
  | cell (name : String) (expr : Expr)

/-- `parser.rs`: the parsed program. -/
structure AST where
  nodes : List Node

def Node.name : Node → String
  | .param n => n
  | .cell n _ => n

/-! ## Numeric helpers (Rust `f64` operations used by the engines) -/

/-- Rust `f64::trunc`: rounding toward zero. -/
def ratTrunc (x : ℚ) : ℤ :=
  if 0 ≤ x then ⌊x⌋ else ⌈x⌉

/-- Rust `%` on `f64`: remainder with the sign of the dividend,
`a - b * trunc(a / b)`. -/
def rustRem (a b : ℚ) : ℚ :=
  a - b * (ratTrunc (a / b) : ℚ)

/-- Rust `f64::round`: round half away from zero. -/
def rustRound (x : ℚ) : ℚ :=
  if 0 ≤ x then ((⌊x + 1/2⌋ : ℤ) : ℚ) else ((⌈x - 1/2⌉ : ℤ) : ℚ)

/-- Rust `f64::floor`. -/
def rustFloor (x : ℚ) : ℚ := ((⌊x⌋ : ℤ) : ℚ)

/-- `ir_interpreter.rs` (`impl Operator`): `compare`, also the comparison
table of the AST interpreter's conditional. -/
def Operator.compare (op : Operator) (left right : ℚ) : Bool :=
  match op with
  | .equals => left == right
  | .greater => decide (left > right)
  | .greaterEqual => decide (left ≥ right)
  | .less => decide (left < right)
  | .lessEqual => decide (left ≤ right)

/-! ## AST interpreter (`src/src/ast_interpreter.rs`)

The call stack is a `Vec<String>` in Rust; it is modelled here with the most
recently pushed name first, so `Vec::push` is `cons` and `Vec::pop` is `tail`
(`tail []` models that popping an empty `Vec` is a no-op).  The random number
generator is modelled by a stream of pre-drawn values consumed head first. -/

namespace AstInterpreter

/-- `ast_interpreter.rs`: the evaluation state of a single name. -/
inductive CellResult where
  | pending (e : Expr)
  | done (v : ℚ)

abbrev CellMap := List (String × CellResult)

/-- `ast_interpreter.rs`: `run_expr`.  Every successful arm performs the final
`call_stack.pop()` of line 128; the arms that `bail!` or propagate an error
with `?` return before that pop, except the conditional arm, whose branch
result (even an error) flows through the pop, exactly as in the source. -/
def runExpr : Nat → CellMap → Expr → List String → List ℚ →
    Outcome (ℚ × List String × List ℚ)
  | 0, _, _, _, _ => .fuelOut
  | fuel+1, cmap, e, stk, rng =>
    match e with
    | .num x => .ok (x, stk.tail, rng)
    | .ident cellName =>
      if stk.contains cellName then
        .err ("cyclic dependency found. -> " ++ cellName)
      else
        match cmap.lookup cellName with
        | none => .err (cellName ++ " is not defined")
        | some (.done x) => .ok (x, stk.tail, rng)
        | some (.pending px) =>
          match runExpr fuel cmap px (cellName :: stk) rng with
          | .ok (v, stk2, rng2) => .ok (v, stk2.tail, rng2)
          | r => r
    | .call name arguments =>
      match name with
      | "rand" => .ok (rng.headD 0, stk.tail, rng.tail)
      | "int" =>
        match arguments with
        | [arg0] =>
          match runExpr fuel cmap arg0 stk rng with
          | .ok (v, stk2, rng2) => .ok (rustRound v, stk2.tail, rng2)
          | r => r
        | _ => .err "int() expects 1 arg"
      | other => .err ("undefined function " ++ other)
    | .add l r =>
      match runExpr fuel cmap l stk rng with
      | .ok (lv, stk1, rng1) =>
        match runExpr fuel cmap r stk1 rng1 with
        | .ok (rv, stk2, rng2) => .ok (lv + rv, stk2.tail, rng2)
        | r2 => r2
      | r1 => r1
    | .sub l r =>
      match runExpr fuel cmap l stk rng with
      | .ok (lv, stk1, rng1) =>
        match runExpr fuel cmap r stk1 rng1 with
        | .ok (rv, stk2, rng2) => .ok (lv - rv, stk2.tail, rng2)
        | r2 => r2
      | r1 => r1
    | .mul l r =>
      match runExpr fuel cmap l stk rng with
      | .ok (lv, stk1, rng1) =>
        match runExpr fuel cmap r stk1 rng1 with
        | .ok (rv, stk2, rng2) => .ok (lv * rv, stk2.tail, rng2)
        | r2 => r2
      | r1 => r1
    | .div l r =>
      match runExpr fuel cmap l stk rng with
      | .ok (lv, stk1, rng1) =>
        match runExpr fuel cmap r stk1 rng1 with
        | .ok (rv, stk2, rng2) => .ok (lv / rv, stk2.tail, rng2)
        | r2 => r2
      | r1 => r1
    | .mod l r =>
      match runExpr fuel cmap l stk rng with
      | .ok (lv, stk1, rng1) =>
        match runExpr fuel cmap r stk1 rng1 with
        | .ok (rv, stk2, rng2) => .ok (rustRem lv rv, stk2.tail, rng2)
        | r2 => r2
      | r1 => r1
    | .condition lhs rhs op tb fb =>
      match runExpr fuel cmap lhs stk rng with
      | .ok (lv, stk1, rng1) =>
        match runExpr fuel cmap rhs stk1 rng1 with
        | .ok (rv, stk2, rng2) =>
          match runExpr fuel cmap (if op.compare lv rv then tb else fb) stk2 rng2 with
          | .ok (v, stk3, rng3) => .ok (v, stk3.tail, rng3)
          | .err m => .err m
          | .crash m => .crash m
          | .fuelOut => .fuelOut
        | r2 => r2
      | r1 => r1

/-- `ast_interpreter.rs` `run`, first loop: seed the context from the
program's nodes, `bail!`-ing on a parameter with no binding. -/
def buildContext (params : List (String × ℚ)) : List Node → CellMap → Outcome CellMap
  | [], cmap => .ok cmap
  | .cell name e :: rest, cmap =>
    buildContext params rest ((name, .pending e) :: cmap)
  | .param name :: rest, cmap =>
    match params.lookup name with
    | some v => buildContext params rest ((name, .done v) :: cmap)
    | none => .err ("param " ++ name ++ " not found")

/-- `ast_interpreter.rs` `run`, second loop: for each queried name, find the
cell (error if absent), push the name, and evaluate if still pending.  The
push is not popped in the `Done` case, exactly as in the source. -/
def runQueries (fuel : Nat) (cmap : CellMap) :
    List String → List String → List ℚ → Outcome (List (String × ℚ))
  | [], _, _ => .ok []
  | q :: qs, stk, rng =>
    match cmap.lookup q with
    | none => .err (q ++ " is not defined")
    | some cr =>
      match cr with
      | .pending e =>
        match runExpr fuel cmap e (q :: stk) rng with
        | .ok (v, stk2, rng2) =>
          (runQueries fuel cmap qs stk2 rng2).bind fun rest => .ok ((q, v) :: rest)
        | .err m => .err m
        | .crash m => .crash m
        | .fuelOut => .fuelOut
      | .done v =>
        (runQueries fuel cmap qs (q :: stk) rng).bind fun rest => .ok ((q, v) :: rest)

/-- `ast_interpreter.rs`: `run`. -/
def run (fuel : Nat) (code : AST) (cellNames : List String)
    (params : List (String × ℚ)) (rng : List ℚ) : Outcome (List (String × ℚ)) :=
  (buildContext params code.nodes []).bind fun cmap =>
    runQueries fuel cmap cellNames [] rng

end AstInterpreter

/-! ## Accumulator IR and lowering (`src/src/ir.rs`) -/

namespace Ir

/-- `ir.rs`: `Slot`. -/
inductive Slot where
  | accumulator
  | var (i : Nat)
  | cellResult (name : String)
  | const (x : ℚ)
  deriving DecidableEq

/-- `ir.rs`: `Instruction`.  Rust's fields `from`/`to` of `Mov` and `to` of
`LoadParam` are renamed `frm`/`dst` (`from` and `to` are Lean keywords). -/
inductive Instruction where
  | jmpCompare (op : Operator) (arg : Slot) (addr : Nat)
  | jmp (addr : Nat)
  | add (s : Slot)
  | sub (s : Slot)
  | mul (s : Slot)
  | mod (s : Slot)
  | nop
  | div (s : Slot)
  | call (fnName : String) (argStart : Nat)
  | mov (frm dst : Slot)
  | loadParam (param : String) (dst : Slot)
  deriving DecidableEq

/-- Whether an accumulator-IR instruction is a jump (only conditionals emit
these). -/
def Instruction.isJump : Instruction → Bool
  | .jmpCompare _ _ _ => true
  | .jmp _ => true
  | _ => false

mutual

/-- `ir.rs`: `code_gen_expr`.  The Rust function appends to `ir.instructions`
and back-patches the two placeholder `Nop`s of a conditional; here it is
embedded functionally: `base` is the length of `ir.instructions` on entry (so
that emitted jump addresses, which are absolute, can be computed), and the
returned pair is the final value of `*sp` together with the emitted
instructions.  The fuel decreases at every recursive call; the Rust recursion
is structural, so any fuel larger than the expression depth gives the exact
emitted code. -/
def codeGenExpr : Nat → Nat → Nat → Expr → Outcome (Nat × List Instruction)
  | 0, _, _, _ => .fuelOut
  | fuel+1, sp, base, e =>
    match e with
    | .num x => .ok (sp, [.mov (.const x) .accumulator])
    | .ident x => .ok (sp, [.mov (.cellResult x) .accumulator])
    | .call name arguments =>
      let argStart := sp
      (codeGenArgs fuel sp base 0 arguments).bind fun (sp2, code) =>
        .ok (sp2, code ++ [.call name argStart])
    | .add l r =>
      (codeGenExpr fuel sp base l).bind fun (sp1, c1) =>
        (codeGenExpr fuel (sp1 + 1) (base + c1.length + 1) r).bind fun (sp2, c2) =>
          .ok (sp2, c1 ++ [.mov .accumulator (.var sp1)] ++ c2 ++ [.add (.var sp1)])
    | .mul l r =>
      (codeGenExpr fuel sp base l).bind fun (sp1, c1) =>
        (codeGenExpr fuel (sp1 + 1) (base + c1.length + 1) r).bind fun (sp2, c2) =>
          .ok (sp2, c1 ++ [.mov .accumulator (.var sp1)] ++ c2 ++ [.mul (.var sp1)])
    | .mod l r =>
      (codeGenExpr fuel sp base r).bind fun (sp1, c1) =>
        (codeGenExpr fuel (sp1 + 1) (base + c1.length + 1) l).bind fun (sp2, c2) =>
          .ok (sp2, c1 ++ [.mov .accumulator (.var sp1)] ++ c2 ++ [.mod (.var sp1)])
    | .sub l r =>
      (codeGenExpr fuel sp base r).bind fun (sp1, c1) =>
        (codeGenExpr fuel (sp1 + 1) (base + c1.length + 1) l).bind fun (sp2, c2) =>
          .ok (sp2, c1 ++ [.mov .accumulator (.var sp1)] ++ c2 ++ [.sub (.var sp1)])
    | .div l r =>
      (codeGenExpr fuel sp base r).bind fun (sp1, c1) =>
        (codeGenExpr fuel (sp1 + 1) (base + c1.length + 1) l).bind fun (sp2, c2) =>
          .ok (sp2, c1 ++ [.mov .accumulator (.var sp1)] ++ c2 ++ [.div (.var sp1)])
    | .condition lhs rhs op tb fb =>
      (codeGenExpr fuel sp base rhs).bind fun (sp1, c1) =>
        (codeGenExpr fuel (sp1 + 1) (base + c1.length + 1) lhs).bind fun (sp2, c2) =>
          let jmpCmpAddr := base + c1.length + 1 + c2.length
          (codeGenExpr fuel sp2 (jmpCmpAddr + 1) fb).bind fun (sp3, c3) =>
            let falseJmpAddr := jmpCmpAddr + 1 + c3.length
            let trueStart := falseJmpAddr + 1
            (codeGenExpr fuel sp3 trueStart tb).bind fun (sp4, c4) =>
              let lastNop := trueStart + c4.length
              .ok (sp4, c1 ++ [.mov .accumulator (.var sp1)] ++ c2
                ++ [.jmpCompare op (.var sp1) trueStart]
                ++ c3 ++ [.jmp lastNop] ++ c4 ++ [.nop])

/-- The argument loop of the `Atom::Call` arm of `code_gen_expr`: each
argument's value is moved to `Var(*sp + i)` with the current `*sp`, after
which `*sp` is incremented. -/
def codeGenArgs : Nat → Nat → Nat → Nat → List Expr → Outcome (Nat × List Instruction)
  | 0, _, _, _, _ => .fuelOut
  | _+1, sp, _, _, [] => .ok (sp, [])
  | fuel+1, sp, base, i, a :: rest =>
    (codeGenExpr fuel sp base a).bind fun (sp1, c1) =>
      (codeGenArgs fuel (sp1 + 1) (base + c1.length + 1) (i + 1) rest).bind
        fun (sp2, c2) =>
          .ok (sp2, c1 ++ [.mov .accumulator (.var (sp1 + i))] ++ c2)

end

/-- Modelled from the spec (§4.3): `Expr::name_uses`, whose definition is not
among the provided sources — the list of free names used in an expression,
i.e. its identifier atoms collected left to right, recursing through call
arguments, binary operands and all four parts of a conditional.
Processed as a work list so that the recursion is structural in the fuel. -/
def nameUsesAux : Nat → List Expr → Outcome (List String)
  | 0, _ => .fuelOut
  | _+1, [] => .ok []
  | fuel+1, e :: rest =>
    match e with
    | .num _ => nameUsesAux fuel rest
    | .ident x => (nameUsesAux fuel rest).bind fun ns => .ok (x :: ns)
    | .call _ args => nameUsesAux fuel (args ++ rest)
    | .add l r => nameUsesAux fuel (l :: r :: rest)
    | .mod l r => nameUsesAux fuel (l :: r :: rest)
    | .sub l r => nameUsesAux fuel (l :: r :: rest)
    | .mul l r => nameUsesAux fuel (l :: r :: rest)
    | .div l r => nameUsesAux fuel (l :: r :: rest)
    | .condition lhs rhs _ tb fb => nameUsesAux fuel (lhs :: rhs :: tb :: fb :: rest)

def nameUses (fuel : Nat) (e : Expr) : Outcome (List String) :=
  nameUsesAux fuel [e]

/-- The `for node in &ast.nodes` loop of `get_order_of_execution` that
builds `dep_map`: each node inserts its entry (`HashMap::insert`, modelled
as cons so that `lookup` finds the latest insertion first). -/
def depEntriesAux (fuel : Nat) : List Node → List (String × List String) →
    Outcome (List (String × List String))
  | [], m => .ok m
  | .param p :: rest, m => depEntriesAux fuel rest ((p, []) :: m)
  | .cell name e :: rest, m =>
    (nameUses fuel e).bind fun us => depEntriesAux fuel rest ((name, us) :: m)

/-- `ir.rs` `get_order_of_execution`: the `dep_map` `HashMap`, as the list of
its insertions (latest first, looked up first-match). -/
def depEntries (fuel : Nat) (ast : AST) : Outcome (List (String × List String)) :=
  depEntriesAux fuel ast.nodes []

/-- One entry per key, keeping for each key the value that `lookup` finds
(the latest `HashMap::insert`); models iterating the `HashMap`. -/
def dedupKeys {α : Type} (seen : List String) : List (String × α) → List (String × α)
  | [] => []
  | (k, v) :: rest =>
    if seen.contains k then dedupKeys seen rest
    else (k, v) :: dedupKeys (k :: seen) rest

/-- Insertion into a list sorted by key; models `sorted_by_key(|x| &*x.0)`. -/
def sortInsert {α : Type} (p : String × α) : List (String × α) → List (String × α)
  | [] => [p]
  | q :: rest => if q.1 < p.1 then q :: sortInsert p rest else p :: q :: rest

/-- Sorting the map's entries by key; models `sorted_by_key(|x| &*x.0)`. -/
def sortByKey {α : Type} : List (String × α) → List (String × α)
  | [] => []
  | p :: rest => sortInsert p (sortByKey rest)

/-- The eager
`deps.iter().filter(|x| !order.contains(x)).map(|x| (*x, graph.get(x).unwrap())).collect()`
of `update_order_in_subset`: collected before any recursion, so a dependency
that is not a key of the graph panics here (`unwrap` on `None`). -/
def collectDeps (graph : List (String × List String)) :
    List String → Outcome (List (String × List String))
  | [] => .ok []
  | d :: rest =>
    match graph.lookup d with
    | none => .crash ("unwrap on a None value: " ++ d)
    | some dl => (collectDeps graph rest).bind fun r => .ok ((d, dl) :: r)

mutual

/-- `ir.rs`: `update_order_in_subset`.  `order` is the `&Vec` borrowed from
the caller: it does not change during one call, exactly as in the source. -/
def updateOrderInSubset :
    Nat → List (String × List String) → String × List String → List String →
    Outcome (List String)
  | 0, _, _, _ => .fuelOut
  | fuel+1, graph, (name, deps), order =>
    if order.contains name then .ok []
    else
      (collectDeps graph (deps.filter fun x => ¬ order.contains x)).bind fun pairs =>
        (updateOrderDeps fuel graph pairs order).bind fun result =>
          .ok (if ¬ order.contains name then result ++ [name] else result)

/-- The `for node in deps` loop of `update_order_in_subset`. -/
def updateOrderDeps :
    Nat → List (String × List String) → List (String × List String) →
    List String → Outcome (List String)
  | 0, _, _, _ => .fuelOut
  | fuel+1, graph, pairs, order =>
    match pairs with
    | [] => .ok []
    | p :: rest =>
      (updateOrderInSubset fuel graph p order).bind fun r =>
        (updateOrderDeps fuel graph rest order).bind fun rr => .ok (r ++ rr)

end

/-- The `for (name, deps) in dep_map.iter().sorted_by_key(..)` loop of
`get_order_of_execution`. -/
def ooeLoop (fuel : Nat) (graph : List (String × List String)) :
    List (String × List String) → List String → Outcome (List String)
  | [], order => .ok order
  | entry :: rest, order =>
    (updateOrderInSubset fuel graph entry order).bind fun r =>
      ooeLoop fuel graph rest (order ++ r)

/-- `ir.rs`: `get_order_of_execution`. -/
def getOrderOfExecution (fuel : Nat) (ast : AST) : Outcome (List String) :=
  (depEntries fuel ast).bind fun graph =>
    ooeLoop fuel graph (sortByKey (dedupKeys [] graph)) []

/-- `ir.rs` `find_node` (not among the provided sources; modelled from its
uses and the spec: the node declaring the given name). -/
def findNode (ast : AST) (name : String) : Option Node :=
  ast.nodes.find? fun n => n.name == name

/-- The `for item in order_of_execution` loop of `code_gen`. -/
def codeGenLoop (fuel : Nat) (ast : AST) :
    List String → List Instruction → Outcome (List Instruction)
  | [], acc => .ok acc
  | item :: rest, acc =>
    match findNode ast item with
    | none => .crash "unreachable"
    | some (.param name) =>
      codeGenLoop fuel ast rest (acc ++ [.loadParam name (.cellResult name)])
    | some (.cell name e) =>
      (codeGenExpr fuel 0 acc.length e).bind fun (_, code) =>
        codeGenLoop fuel ast rest (acc ++ code ++ [.mov .accumulator (.cellResult name)])

/-- `ir.rs`: `code_gen`. -/
def codeGen (fuel : Nat) (ast : AST) : Outcome (List Instruction) :=
  (getOrderOfExecution fuel ast).bind fun order => codeGenLoop fuel ast order []

end Ir

/-! ## IR interpreter (`src/src/ir_interpreter.rs`)

The accumulator machine: an accumulator `a`, a fixed `[f64; 10]` scratch
array (indexing it out of bounds is a panic), and the `result` map of cell
values (`HashMap`, modelled in first-write order since `entry().or_insert`
appends and later writes update in place). -/

namespace IrInterpreter

structure MachineState where
  a : ℚ
  stack : List ℚ
  result : List (String × ℚ)
  rng : List ℚ

/-- The `read!` macro of `ir_interpreter.rs`. -/
def readSlot (s : MachineState) : Ir.Slot → Outcome ℚ
  | .accumulator => .ok s.a
  | .var i => if i < 10 then .ok (s.stack.getD i 0) else .crash "index out of bounds"
  | .cellResult name => .ok ((s.result.lookup name).getD 0)
  | .const x => .ok x

/-- The `get_slot!` macro of `ir_interpreter.rs` combined with the assignment
`*to = from` that always follows it. -/
def writeSlot (s : MachineState) (v : ℚ) : Ir.Slot → Outcome MachineState
  | .accumulator => .ok { s with a := v }
  | .var i =>
    if i < 10 then .ok { s with stack := s.stack.set i v }
    else .crash "index out of bounds"
  | .cellResult name =>
    if (s.result.lookup name).isSome then
      .ok { s with result := s.result.map fun p => if p.1 = name then (name, v) else p }
    else
      .ok { s with result := s.result ++ [(name, v)] }
  | .const _ => .err "cannot get mutable reference to a const"

/-- `ir_interpreter.rs` `run`, the `while let Some(inst)` loop.  Note that the
source has no `continue` after `ip = *addr`, so the unconditional `ip += 1`
at the bottom of the loop body also applies to taken jumps: a taken
`JMPCompare`/`JMP` resumes at `addr + 1`. -/
def exec : Nat → List Ir.Instruction → List (String × ℚ) → Nat → MachineState →
    Outcome (List (String × ℚ))
  | 0, _, _, _, _ => .fuelOut
  | fuel+1, instrs, params, ip, s =>
    match instrs.get? ip with
    | none => .ok s.result
    | some inst =>
      match inst with
      | .jmpCompare op arg addr =>
        (readSlot s arg).bind fun av =>
          exec fuel instrs params ((if op.compare s.a av then addr else ip) + 1) s
      | .jmp addr => exec fuel instrs params (addr + 1) s
      | .add sl =>
        (readSlot s sl).bind fun v => exec fuel instrs params (ip + 1) { s with a := s.a + v }
      | .sub sl =>
        (readSlot s sl).bind fun v => exec fuel instrs params (ip + 1) { s with a := s.a - v }
      | .mul sl =>
        (readSlot s sl).bind fun v => exec fuel instrs params (ip + 1) { s with a := s.a * v }
      | .mod sl =>
        (readSlot s sl).bind fun v =>
          exec fuel instrs params (ip + 1) { s with a := rustRem s.a v }
      | .div sl =>
        (readSlot s sl).bind fun v => exec fuel instrs params (ip + 1) { s with a := s.a / v }
      | .nop => exec fuel instrs params (ip + 1) s
      | .mov frm dst =>
        (readSlot s frm).bind fun v =>
          (writeSlot s v dst).bind fun s2 => exec fuel instrs params (ip + 1) s2
      | .loadParam p dst =>
        match params.lookup p with
        | some v =>
          (writeSlot s v dst).bind fun s2 => exec fuel instrs params (ip + 1) s2
        | none => .err ("param " ++ p ++ " not found")
      | .call fnName argStart =>
        match fnName with
        | "rand" =>
          exec fuel instrs params (ip + 1)
            { s with a := s.rng.headD 0, rng := s.rng.tail }
        | "int" =>
          (readSlot s (.var argStart)).bind fun v =>
            exec fuel instrs params (ip + 1) { s with a := rustRound v }
        | other => .err ("undefined function " ++ other)

/-- `ir_interpreter.rs`: `run`. -/
def run (fuel : Nat) (instrs : List Ir.Instruction) (params : List (String × ℚ))
    (rng : List ℚ) : Outcome (List (String × ℚ)) :=
  exec fuel instrs params 0 ⟨0, List.replicate 10 0, [], rng⟩

end IrInterpreter

/-! ## Stack VM (`src/src/vm.rs`)

`vm.rs` executes a stack-based IR.  The file defining that IR (the current
`ir.rs` of the crate, whose `Instruction` has `SPOffset` read offsets and a
`meta.cell_addrs` table) is not among the provided sources; its `Instruction`
type is reconstructed here exactly from the exhaustive `match` in `vm.rs`
(plus `NotEqual`, also matched in `cranelift.rs`), and the metadata is
modelled from the spec (§3, §4.6) as the ordered list of
`(name, persistent stack offset)` pairs that `run` reads at the end. -/

namespace Vm

inductive Instruction where
  | jmpIfFalse (addr : Nat)
  | greater
  | greaterEqual
  | less
  | lessEqual
  | equal
  | notEqual
  | loadConst (x : ℚ)
  | jmp (addr : Nat)
  | read (spo : Nat)
  | add
  | sub
  | mul
  | mod
  | div
  | nop
  | loadParam (name : String)
  | call (name : String)
  deriving DecidableEq

/-- `vm.rs`: `Stack<64>`.  `data` always has 64 entries; `push` writes
`data[st]` (panicking when `st` is out of bounds), `pop` decrements `st`
(panicking on `usize` underflow when `st == 0`), `peak` reads an arbitrary
offset (panicking out of bounds). -/
structure Stack where
  data : List ℚ
  st : Nat

def Stack.default : Stack := ⟨List.replicate 64 0, 0⟩

def Stack.push (s : Stack) (v : ℚ) : Outcome Stack :=
  if s.st < s.data.length then .ok ⟨s.data.set s.st v, s.st + 1⟩
  else .crash "index out of bounds"

def Stack.pop (s : Stack) : Outcome (ℚ × Stack) :=
  if s.st = 0 then .crash "attempt to subtract with overflow"
  else .ok (s.data.getD (s.st - 1) 0, ⟨s.data, s.st - 1⟩)

def Stack.peak (s : Stack) (spo : Nat) : Outcome ℚ :=
  if spo < s.data.length then .ok (s.data.getD spo 0)
  else .crash "index out of bounds"

/-- `vm.rs` `run`, the instruction loop.  `JMPIfFalse` and `JMP` use
`continue`, so a taken jump resumes exactly at its target.  In the `Less`
arm the source pops `rhs` first; in every other comparison and arithmetic
arm it pops `lhs` first.  An unknown name in `Call` does nothing. -/
def exec : Nat → List Instruction → List (String × ℚ) → Nat → Stack → List ℚ →
    Outcome (Stack × List ℚ)
  | 0, _, _, _, _, _ => .fuelOut
  | fuel+1, instrs, params, ip, stack, rng =>
    match instrs.get? ip with
    | none => .ok (stack, rng)
    | some inst =>
      match inst with
      | .jmpIfFalse x =>
        stack.pop.bind fun (v, s1) =>
          if v == 0 then exec fuel instrs params x s1 rng
          else exec fuel instrs params (ip + 1) s1 rng
      | .greater =>
        stack.pop.bind fun (lhs, s1) =>
          s1.pop.bind fun (rhs, s2) =>
            (s2.push (if decide (lhs > rhs) then 1 else 0)).bind fun s3 =>
              exec fuel instrs params (ip + 1) s3 rng
      | .greaterEqual =>
        stack.pop.bind fun (lhs, s1) =>
          s1.pop.bind fun (rhs, s2) =>
            (s2.push (if decide (lhs ≥ rhs) then 1 else 0)).bind fun s3 =>
              exec fuel instrs params (ip + 1) s3 rng
      | .less =>
        stack.pop.bind fun (rhs, s1) =>
          s1.pop.bind fun (lhs, s2) =>
            (s2.push (if decide (lhs < rhs) then 1 else 0)).bind fun s3 =>
              exec fuel instrs params (ip + 1) s3 rng
      | .lessEqual =>
        stack.pop.bind fun (lhs, s1) =>
          s1.pop.bind fun (rhs, s2) =>
            (s2.push (if decide (lhs ≤ rhs) then 1 else 0)).bind fun s3 =>
              exec fuel instrs params (ip + 1) s3 rng
      | .equal =>
        stack.pop.bind fun (lhs, s1) =>
          s1.pop.bind fun (rhs, s2) =>
            (s2.push (if lhs == rhs then 1 else 0)).bind fun s3 =>
              exec fuel instrs params (ip + 1) s3 rng
      | .notEqual =>
        stack.pop.bind fun (lhs, s1) =>
          s1.pop.bind fun (rhs, s2) =>
            (s2.push (if lhs != rhs then 1 else 0)).bind fun s3 =>
              exec fuel instrs params (ip + 1) s3 rng
      | .loadConst x =>
        (stack.push x).bind fun s1 => exec fuel instrs params (ip + 1) s1 rng
      | .jmp x => exec fuel instrs params x stack rng
      | .read spo =>
        (stack.peak spo).bind fun v =>
          (stack.push v).bind fun s1 => exec fuel instrs params (ip + 1) s1 rng
      | .add =>
        stack.pop.bind fun (lhs, s1) =>
          s1.pop.bind fun (rhs, s2) =>
            (s2.push (lhs + rhs)).bind fun s3 => exec fuel instrs params (ip + 1) s3 rng
      | .sub =>
        stack.pop.bind fun (lhs, s1) =>
          s1.pop.bind fun (rhs, s2) =>
            (s2.push (lhs - rhs)).bind fun s3 => exec fuel instrs params (ip + 1) s3 rng
      | .mul =>
        stack.pop.bind fun (lhs, s1) =>
          s1.pop.bind fun (rhs, s2) =>
            (s2.push (lhs * rhs)).bind fun s3 => exec fuel instrs params (ip + 1) s3 rng
      | .mod =>
        stack.pop.bind fun (lhs, s1) =>
          s1.pop.bind fun (rhs, s2) =>
            (s2.push (rustRem lhs rhs)).bind fun s3 => exec fuel instrs params (ip + 1) s3 rng
      | .div =>
        stack.pop.bind fun (lhs, s1) =>
          s1.pop.bind fun (rhs, s2) =>
            (s2.push (lhs / rhs)).bind fun s3 => exec fuel instrs params (ip + 1) s3 rng
      | .nop => exec fuel instrs params (ip + 1) stack rng
      | .loadParam x =>
        match params.lookup x with
        | some v => (stack.push v).bind fun s1 => exec fuel instrs params (ip + 1) s1 rng
        | none => .err "param not found"
      | .call name =>
        match name with
        | "int" =>
          stack.pop.bind fun (v, s1) =>
            (s1.push (rustFloor v)).bind fun s2 => exec fuel instrs params (ip + 1) s2 rng
        | "rand" =>
          (stack.push (rng.headD 0)).bind fun s1 =>
            exec fuel instrs params (ip + 1) s1 rng.tail
        | _ => exec fuel instrs params (ip + 1) stack rng

/-- The result loop of `vm.rs` `run`: one `peak` per metadata entry. -/
def buildResult (stack : Stack) : List (String × Nat) → Outcome (List (String × ℚ))
  | [] => .ok []
  | (name, spo) :: rest =>
    (stack.peak spo).bind fun v =>
      (buildResult stack rest).bind fun r => .ok ((name, v) :: r)

/-- `vm.rs`: `run`.  `cellAddrs` is the IR metadata `meta.cell_addrs`. -/
def run (fuel : Nat) (instrs : List Instruction) (params : List (String × ℚ))
    (cellAddrs : List (String × Nat)) (rng : List ℚ) : Outcome (List (String × ℚ)) :=
  (exec fuel instrs params 0 Stack.default rng).bind fun (st, _) =>
    buildResult st cellAddrs

end Vm

/-! ## Parser (`src/src/parser.rs`)

Tokens are those of `scanner.rs`; `Mod` (the `%` operator) is matched by
`parser.rs` (`is_operator` and `parse_expr`) although the provided snapshot of
`scanner.rs` predates it, so it is included.  A `Number` token carries the
already-parsed numeric value (Rust stores the source slice and `parse_atom`
converts it with `str::parse::<f64>`).

The parser works on a `Peekable` iterator that is advanced even by failed
sub-parses, and `parse_atom`'s argument loop relies on this (`while let
Ok(expr) = parse_expr(..)` stops on the first failure, which has already
consumed the closing parenthesis of an empty argument list).  Each function
therefore returns the outcome together with the remaining tokens, also on
failure. -/

namespace Parser

inductive Token where
  | Param
  | Cell
  | Ident (s : String)
  | If
  | QMark
  | SemiColon
  | Colon
  | Mul
  | Add
  | Sub
  | Div
  | Mod
  | Number (x : ℚ)
  | ParOpen
  | ParClose
  | Comma
  | Greater
  | GreaterEqual
  | Less
  | LessEqual
  | Equal
  deriving DecidableEq

/-- `parser.rs`: `Token::is_operator`. -/
def Token.isOperator : Token → Bool
  | .Mul => true
  | .Add => true
  | .Sub => true
  | .Div => true
  | .Mod => true
  | _ => false

mutual

/-- `parser.rs`: `parse_atom`.  Returns an `Atom` in Rust; here the inlined
`Expr` atom constructors. -/
def parseAtom : Nat → List Token → Outcome Expr × List Token
  | 0, ts => (.fuelOut, ts)
  | fuel+1, ts =>
    match ts with
    | [] => (.err "[8] expected a token", [])
    | .Ident x :: .ParOpen :: rest2 => parseCallArgs fuel x [] rest2
    | .Ident x :: rest => (.ok (.ident x), rest)
    | .Number x :: rest => (.ok (.num x), rest)
    | _ :: rest => (.err "[7] unexpected token", rest)

/-- The `while let Ok(expr) = parse_expr(tokens)` argument loop of
`parse_atom`: a failing `parse_expr` ends the loop (its consumed tokens stay
consumed), `)` ends it after consuming, `,` continues, anything else is an
error. -/
def parseCallArgs (fuel : Nat) (fnName : String) (args : List Expr) :
    List Token → Outcome Expr × List Token :=
  match fuel with
  | 0 => fun ts => (.fuelOut, ts)
  | fuel+1 => fun ts =>
    match parseExpr fuel ts with
    | (.ok e, ts1) =>
      match ts1 with
      | .ParClose :: ts2 => (.ok (.call fnName (args ++ [e])), ts2)
      | .Comma :: ts2 => parseCallArgs fuel fnName (args ++ [e]) ts2
      | _ => (.err "invalid token", ts1)
    | (.err _, ts1) => (.ok (.call fnName args), ts1)
    | (.crash m, ts1) => (.crash m, ts1)
    | (.fuelOut, ts1) => (.fuelOut, ts1)

/-- `parser.rs`: `parse_cond` (entered with the `if` token still first; its
own `tokens.next()` consumes it). -/
def parseCond : Nat → List Token → Outcome Expr × List Token
  | 0, ts => (.fuelOut, ts)
  | fuel+1, ts =>
    match parseExpr fuel ts.tail with
    | (.ok lhs, ts1) =>
      match ts1 with
      | [] => (.err "unexpected token", [])
      | opTok :: ts2 =>
        let op? : Option Operator :=
          match opTok with
          | .Greater => some .greater
          | .GreaterEqual => some .greaterEqual
          | .Less => some .less
          | .LessEqual => some .lessEqual
          | .Equal => some .equals
          | _ => none
        match op? with
        | none => (.err "unexpected token", ts2)
        | some op =>
          match parseExpr fuel ts2 with
          | (.ok rhs, ts3) =>
            match ts3 with
            | .QMark :: ts4 =>
              match parseExpr fuel ts4 with
              | (.ok tb, ts5) =>
                match ts5 with
                | .Colon :: ts6 =>
                  match parseExpr fuel ts6 with
                  | (.ok fb, ts7) => (.ok (.condition lhs rhs op tb fb), ts7)
                  | r => r
                | _ :: ts6 => (.err "expected :", ts6)
                | [] => (.err "expected :", [])
              | r => r
            | _ :: ts4 => (.err "expected ?", ts4)
            | [] => (.err "expected ?", [])
          | r => r
    | r => r

/-- `parser.rs`: `parse_expr`: a primary (parenthesized expression,
conditional, or atom), then, if the next token is a binary operator, a
recursive `parse_expr` for the whole right-hand side — uniform
right-associative grouping with no precedence. -/
def parseExpr : Nat → List Token → Outcome Expr × List Token
  | 0, ts => (.fuelOut, ts)
  | fuel+1, ts =>
    match ts with
    | [] => (.err "[6] expected a token", [])
    | first :: _ =>
      let lhs :=
        match first with
        | .ParOpen =>
          match parseExpr fuel ts.tail with
          | (.ok e, ts2) =>
            match ts2 with
            | .ParClose :: ts3 => ((.ok e : Outcome Expr), ts3)
            | _ :: ts3 => (.err "[5] unexpected token", ts3)
            | [] => (.err "[5] unexpected token", [])
          | r => r
        | .If => parseCond fuel ts
        | _ => parseAtom fuel ts
      match lhs with
      | (.ok lhsExpr, ts1) =>
        match ts1 with
        | next :: ts2 =>
          if next.isOperator then
            match parseExpr fuel ts2 with
            | (.ok rhsExpr, ts3) =>
              match next with
              | .Mul => (.ok (.mul lhsExpr rhsExpr), ts3)
              | .Add => (.ok (.add lhsExpr rhsExpr), ts3)
              | .Sub => (.ok (.sub lhsExpr rhsExpr), ts3)
              | .Div => (.ok (.div lhsExpr rhsExpr), ts3)
              | .Mod => (.ok (.mod lhsExpr rhsExpr), ts3)
              | _ => (.err "unreachable!", ts3)
            | r => r
          else (.ok lhsExpr, ts1)
        | [] => (.ok lhsExpr, ts1)
      | r => r

end

end Parser

/-! ## Concrete programs and predicates used by the claim theorems -/

/-- `cell a: if 1 > 0 ? 5 : 7;` — a pure, parameterless program whose
conditional takes the true branch. -/
def condProg : AST :=
  ⟨[.cell "a" (.condition (.num 1) (.num 0) .greater (.num 5) (.num 7))]⟩

/-- `cell a: b; cell b: a;` — the two-cell cycle (spec §8, scenario 5). -/
def cycleProg : AST := ⟨[.cell "a" (.ident "b"), .cell "b" (.ident "a")]⟩

/-- The dependency graph that `get_order_of_execution` builds for
`cycleProg`. -/
def cycleGraph : List (String × List String) := [("b", ["a"]), ("a", ["b"])]

/-- `cell a: 1 + a;` — a self-cycle reached through a binary operand. -/
def selfCycleProg : AST := ⟨[.cell "a" (.add (.num 1) (.ident "a"))]⟩

/-- The expression of the single cell of `selfCycleProg`. -/
def selfCycleExpr : Expr := .add (.num 1) (.ident "a")

/-- `cell a: foo();` — a parameterless program calling an unknown function. -/
def fooProg : AST := ⟨[.cell "a" (.call "foo" [])]⟩

/-- `cell a: b;` — references the undeclared name `b`. -/
def undeclaredProg : AST := ⟨[.cell "a" (.ident "b")]⟩

/-- `param p;` — one declared parameter and nothing else. -/
def paramProg : AST := ⟨[.param "p"]⟩

/-- The program of spec §8 scenario 6:
`param p1; param p2; cell c: p1 + 1; cell a: 5 + c;`
`cell test: p1 + p2 * p2 + a * p1 / (p2 + 1);` (the `test` expression in the
parser's uniform right-associative grouping). -/
def scenario6Prog : AST := ⟨[
  .param "p1",
  .param "p2",
  .cell "c" (.add (.ident "p1") (.num 1)),
  .cell "a" (.add (.num 5) (.ident "c")),
  .cell "test" (.add (.ident "p1") (.mul (.ident "p2") (.add (.ident "p2")
    (.mul (.ident "a") (.div (.ident "p1") (.add (.ident "p2") (.num 1)))))))]⟩

/-- Expressions that contain no identifier atom (so evaluating them resolves
no `Pending` cell and pushes nothing on the call stack). -/
inductive IdentFree : Expr → Prop where
  | num (x : ℚ) : IdentFree (.num x)
  | call (name : String) (arguments : List Expr)
      (h : ∀ a ∈ arguments, IdentFree a) : IdentFree (.call name arguments)
  | add {l r : Expr} (hl : IdentFree l) (hr : IdentFree r) : IdentFree (.add l r)
  | mod {l r : Expr} (hl : IdentFree l) (hr : IdentFree r) : IdentFree (.mod l r)
  | sub {l r : Expr} (hl : IdentFree l) (hr : IdentFree r) : IdentFree (.sub l r)
  | mul {l r : Expr} (hl : IdentFree l) (hr : IdentFree r) : IdentFree (.mul l r)
  | div {l r : Expr} (hl : IdentFree l) (hr : IdentFree r) : IdentFree (.div l r)
  | condition {lhs rhs tb fb : Expr} (op : Operator)
      (h1 : IdentFree lhs) (h2 : IdentFree rhs) (h3 : IdentFree tb)
      (h4 : IdentFree fb) : IdentFree (.condition lhs rhs op tb fb)

/-- Expressions with no conditional, hence whose lowering emits no
`JMPCompare`/`JMP`. -/
inductive CondFree : Expr → Prop where
  | num (x : ℚ) : CondFree (.num x)
  | ident (name : String) : CondFree (.ident name)
  | call (name : String) (arguments : List Expr)
      (h : ∀ a ∈ arguments, CondFree a) : CondFree (.call name arguments)
  | add {l r : Expr} (hl : CondFree l) (hr : CondFree r) : CondFree (.add l r)
  | mod {l r : Expr} (hl : CondFree l) (hr : CondFree r) : CondFree (.mod l r)
  | sub {l r : Expr} (hl : CondFree l) (hr : CondFree r) : CondFree (.sub l r)
  | mul {l r : Expr} (hl : CondFree l) (hr : CondFree r) : CondFree (.mul l r)
  | div {l r : Expr} (hl : CondFree l) (hr : CondFree r) : CondFree (.div l r)

/-- An AST all of whose cell expressions are conditional-free. -/
def AST.condFree (ast : AST) : Prop :=
  ∀ n ∈ ast.nodes, ∀ nm e, n = Node.cell nm e → CondFree e

/-- The declared parameter names of a program. -/
def declaredParams (ast : AST) : List String :=
  ast.nodes.filterMap fun n =>
    match n with
    | .param p => some p
    | .cell _ _ => none

/-- The declared names (parameters and cells) of a program. -/
def declaredNames (ast : AST) : List String := ast.nodes.map Node.name

/-- The cell map that `ast_interpreter.rs`'s `run` builds for
`selfCycleProg`. -/
def selfCycleCtx : AstInterpreter.CellMap := [("a", .pending selfCycleExpr)]

/-- The `Expr` node an operator token builds in `parse_expr`
(`Mul → Expr::Mul`, …); identity on the left operand for non-operators,
which `parse_expr` never reaches. -/
def Parser.Token.buildBin : Parser.Token → Expr → Expr → Expr
  | .Mul, l, r => .mul l r
  | .Add, l, r => .add l r
  | .Sub, l, r => .sub l r
  | .Div, l, r => .div l r
  | .Mod, l, r => .mod l r
  | _, l, _ => l

/-- The token stream `NUMBER (OP NUMBER)*`:
`chainTokens a [(op1, b1), (op2, b2), …]` is `a op1 b1 op2 b2 …`. -/
def Parser.chainTokens (a : ℚ) : List (Parser.Token × ℚ) → List Parser.Token
  | [] => [Parser.Token.Number a]
  | (op, b) :: rest => Parser.Token.Number a :: op :: Parser.chainTokens b rest

/-- The fully right-nested expression `a op1 (b1 op2 (b2 …))`. -/
def Parser.rightNest (a : ℚ) : List (Parser.Token × ℚ) → Expr
  | [] => .num a
  | (op, b) :: rest => op.buildBin (.num a) (Parser.rightNest b rest)

/-- `SupFrom graph A l`: walking `l` left to right with the names of `A`
already listed, every name is either a repeat of an earlier one or has all
of its dependencies (its value in `graph`, when it is a key) among the names
listed before it.  `SupFrom graph [] order` is the topological-soundness
property of an order: every name appears after all of its dependencies. -/
def Ir.SupFrom (graph : List (String × List String)) :
    List String → List String → Prop
  | _, [] => True
  | a, nm :: rest =>
    (nm ∈ a ∨ ∀ deps, graph.lookup nm = some deps → ∀ d ∈ deps, d ∈ a) ∧
    Ir.SupFrom graph (a ++ [nm]) rest

/-! ## Helper lemmas -/

@[simp] theorem Outcome.bind_ok {α β : Type} (a : α) (f : α → Outcome β) :
    (Outcome.ok a).bind f = f a := rfl

@[simp] theorem Outcome.bind_err {α β : Type} (m : String) (f : α → Outcome β) :
    (Outcome.err m).bind f = .err m := rfl

@[simp] theorem Outcome.bind_crash {α β : Type} (m : String) (f : α → Outcome β) :
    (Outcome.crash m).bind f = .crash m := rfl

@[simp] theorem Outcome.bind_fuelOut {α β : Type} (f : α → Outcome β) :
    (Outcome.fuelOut : Outcome α).bind f = .fuelOut := rfl

/-- On the cyclic dependency graph of `cell a: b; cell b: a;`,
`update_order_in_subset` recurses between the two nodes forever: it runs out
of any amount of fuel. -/
theorem cycleUpdate_fuelOut (fuel : Nat) :
    Ir.updateOrderInSubset fuel cycleGraph ("a", ["b"]) [] = .fuelOut ∧
    Ir.updateOrderInSubset fuel cycleGraph ("b", ["a"]) [] = .fuelOut := by
  induction fuel using Nat.strong_induction_on with
  | _ fuel ih =>
    rcases fuel with _ | f
    · exact ⟨rfl, rfl⟩
    · constructor
      · rcases f with _ | g
        · rfl
        · have h := (ih g (by omega)).2
          simp only [cycleGraph] at h
          simp only [Ir.updateOrderInSubset, Ir.updateOrderDeps, Ir.collectDeps,
            cycleGraph, List.contains, List.filter, List.lookup]
          simp [h]
      · rcases f with _ | g
        · rfl
        · have h := (ih g (by omega)).1
          simp only [cycleGraph] at h
          simp only [Ir.updateOrderInSubset, Ir.updateOrderDeps, Ir.collectDeps,
            cycleGraph, List.contains, List.filter, List.lookup]
          simp [h]

/-- On `cell a: 1 + a;` the AST interpreter's `run_expr` recurses forever:
evaluating the left operand `1` already pops the cycle marker `"a"` off the
call stack, so resolving the identifier `a` afterwards finds an empty stack,
pushes `"a"` again and restarts the same evaluation. -/
theorem selfCycle_runExpr_fuelOut (fuel : Nat) :
    AstInterpreter.runExpr fuel selfCycleCtx selfCycleExpr ["a"] [] = .fuelOut := by
  induction fuel using Nat.strong_induction_on with
  | _ fuel ih =>
    rcases fuel with _ | f
    · rfl
    · rcases f with _ | g
      · rfl
      · have h := ih g (by omega)
        simp only [selfCycleExpr, selfCycleCtx] at h ⊢
        simp only [AstInterpreter.runExpr, List.contains, List.lookup]
        simp [h]

/-- `parse_expr` on a single number token: the atom, nothing left. -/
theorem parseExpr_single_num (f : Nat) (a : ℚ) :
    Parser.parseExpr (f+2) [.Number a] = (.ok (.num a), []) := rfl

/-- One binary step of `parse_expr`: a number primary followed by an operator
token parses the whole remainder as the right-hand side. -/
theorem parseExpr_num_op_step (f : Nat) (a : ℚ) (op : Parser.Token)
    (ts' : List Parser.Token) (res : Expr) (rest' : List Parser.Token)
    (hop : op.isOperator = true)
    (h : Parser.parseExpr (f+1) ts' = (.ok res, rest')) :
    Parser.parseExpr (f+2) (.Number a :: op :: ts') =
      (.ok (op.buildBin (.num a) res), rest') := by
  conv_lhs => rw [Parser.parseExpr.eq_def]
  simp only [Parser.parseAtom]
  simp only [hop, if_true, h]
  cases op <;> simp_all [Parser.Token.buildBin, Parser.Token.isOperator]

/-! ## Lemmas for the dependency analyzer (C9, C6) -/

namespace Ir

theorem supFrom_nil (g : List (String × List String)) (a : List String) :
    SupFrom g a [] := trivial

theorem supFrom_mono {g : List (String × List String)} {a a' c : List String}
    (hsub : ∀ x ∈ a, x ∈ a') (h : SupFrom g a c) : SupFrom g a' c := by
  induction c generalizing a a' with
  | nil => trivial
  | cons nm rest ih =>
    obtain ⟨h1, h2⟩ := h
    refine ⟨?_, ih (fun x hx => ?_) h2⟩
    · rcases h1 with h1 | h1
      · exact Or.inl (hsub nm h1)
      · exact Or.inr fun deps hd d hdd => hsub d (h1 deps hd d hdd)
    · rcases List.mem_append.1 hx with hx | hx
      · exact List.mem_append.2 (Or.inl (hsub x hx))
      · exact List.mem_append.2 (Or.inr hx)

theorem supFrom_concat {g : List (String × List String)} {a b c : List String}
    (hb : SupFrom g a b) (hc : SupFrom g (a ++ b) c) : SupFrom g a (b ++ c) := by
  induction b generalizing a with
  | nil => simpa using hc
  | cons nm rest ih =>
    obtain ⟨h1, h2⟩ := hb
    refine ⟨h1, ih h2 ?_⟩
    have : a ++ nm :: rest = (a ++ [nm]) ++ rest := by simp
    rwa [this] at hc

theorem supFrom_append_one {g : List (String × List String)} {a b : List String}
    {nm : String} (hb : SupFrom g a b)
    (hnm : nm ∈ a ++ b ∨ ∀ deps, g.lookup nm = some deps → ∀ d ∈ deps, d ∈ a ++ b) :
    SupFrom g a (b ++ [nm]) :=
  supFrom_concat hb ⟨hnm, trivial⟩

theorem collectDeps_ok {g : List (String × List String)} :
    ∀ {ds : List String} {pairs : List (String × List String)},
      collectDeps g ds = .ok pairs →
      pairs.map Prod.fst = ds ∧ ∀ p ∈ pairs, g.lookup p.1 = some p.2 := by
  intro ds
  induction ds with
  | nil =>
    intro pairs h
    simp only [collectDeps] at h
    cases h
    simp
  | cons d rest ih =>
    intro pairs h
    simp only [collectDeps] at h
    split at h
    · simp at h
    · rename_i dl hdl
      cases hr : collectDeps g rest with
      | ok r =>
        rw [hr] at h
        simp only [Outcome.bind_ok] at h
        cases h
        obtain ⟨h1, h2⟩ := ih hr
        refine ⟨by simp [h1], ?_⟩
        intro p hp
        rcases List.mem_cons.1 hp with rfl | hp
        · exact hdl
        · exact h2 p hp
      | err m => rw [hr] at h; simp at h
      | crash m => rw [hr] at h; simp at h
      | fuelOut => rw [hr] at h; simp at h

theorem updInv (fuel : Nat) :
    (∀ (g : List (String × List String)) (nm : String) (deps : List String)
       (order res : List String), g.lookup nm = some deps →
       updateOrderInSubset fuel g (nm, deps) order = .ok res →
       SupFrom g [] order →
       SupFrom g order res ∧ nm ∈ order ++ res) ∧
    (∀ (g : List (String × List String)) (pairs : List (String × List String))
       (order res : List String), (∀ p ∈ pairs, g.lookup p.1 = some p.2) →
       updateOrderDeps fuel g pairs order = .ok res →
       SupFrom g [] order →
       SupFrom g order res ∧ ∀ p ∈ pairs, p.1 ∈ order ++ res) := by
  induction fuel with
  | zero =>
    constructor
    · intro g nm deps order res _ h
      simp [updateOrderInSubset] at h
    · intro g pairs order res _ h
      simp [updateOrderDeps] at h
  | succ f ih =>
    obtain ⟨ihU, ihD⟩ := ih
    constructor
    · -- updateOrderInSubset (f+1)
      intro g nm deps order res hlook h hord
      simp only [updateOrderInSubset] at h
      split at h
      · -- nm already in order
        rename_i hmem
        cases h
        refine ⟨trivial, ?_⟩
        simp only [List.elem_eq_mem, decide_eq_true_eq] at hmem
        simp [hmem]
      · rename_i hmem
        simp only [List.elem_eq_mem, decide_eq_true_eq] at hmem
        cases hpairs : collectDeps g (deps.filter fun x => ¬ order.contains x) with
        | err m => rw [hpairs] at h; simp at h
        | crash m => rw [hpairs] at h; simp at h
        | fuelOut => rw [hpairs] at h; simp at h
        | ok pairs =>
          rw [hpairs] at h
          simp only [Outcome.bind_ok] at h
          obtain ⟨hkeys, hplook⟩ := collectDeps_ok hpairs
          cases hresult : updateOrderDeps f g pairs order with
          | err m => rw [hresult] at h; simp at h
          | crash m => rw [hresult] at h; simp at h
          | fuelOut => rw [hresult] at h; simp at h
          | ok result =>
            rw [hresult] at h
            simp only [Outcome.bind_ok] at h
            obtain ⟨hres1, hres2⟩ := ihD g pairs order result hplook hresult hord
            cases h
            constructor
            · refine supFrom_append_one hres1 (Or.inr ?_)
              intro deps' hdeps' d hd
              rw [hlook] at hdeps'
              cases hdeps'
              by_cases hdo : d ∈ order
              · exact List.mem_append.2 (Or.inl hdo)
              · have hdf : d ∈ List.filter (fun x => decide ¬order.contains x = true) deps := by
                  refine List.mem_filter.2 ⟨hd, ?_⟩
                  simp [hdo]
                have hdm : d ∈ pairs.map Prod.fst := by rw [hkeys]; exact hdf
                obtain ⟨p, hp, hpd⟩ := List.mem_map.1 hdm
                rw [← hpd]
                exact hres2 p hp
            · simp
    · -- updateOrderDeps (f+1)
      intro g pairs order res hplook h hord
      simp only [updateOrderDeps] at h
      split at h
      · cases h
        exact ⟨trivial, by simp⟩
      · rename_i p rest
        cases hr : updateOrderInSubset f g p order with
        | err m => rw [hr] at h; simp at h
        | crash m => rw [hr] at h; simp at h
        | fuelOut => rw [hr] at h; simp at h
        | ok r =>
          rw [hr] at h
          simp only [Outcome.bind_ok] at h
          cases hrr : updateOrderDeps f g rest order with
          | err m => rw [hrr] at h; simp at h
          | crash m => rw [hrr] at h; simp at h
          | fuelOut => rw [hrr] at h; simp at h
          | ok rr =>
            rw [hrr] at h
            simp only [Outcome.bind_ok] at h
            cases h
            have hp1 := hplook p (by simp)
            obtain ⟨hr1, hr2⟩ := ihU g p.1 p.2 order r hp1 (by
              cases p
              exact hr) hord
            obtain ⟨hrr1, hrr2⟩ := ihD g rest order rr
              (fun q hq => hplook q (by simp [hq])) hrr hord
            constructor
            · refine supFrom_concat hr1 (supFrom_mono ?_ hrr1)
              intro x hx
              simp [hx]
            · intro q hq
              rcases List.mem_cons.1 hq with rfl | hq
              · rcases List.mem_append.1 hr2 with h2 | h2
                · simp [h2]
                · simp [h2]
              · rcases List.mem_append.1 (hrr2 q hq) with h2 | h2
                · simp [h2]
                · simp [h2]

theorem ooeLoop_inv (fuel : Nat) (g : List (String × List String)) :
    ∀ (entries : List (String × List String)) (order res : List String),
      (∀ p ∈ entries, g.lookup p.1 = some p.2) →
      ooeLoop fuel g entries order = .ok res →
      SupFrom g [] order →
      SupFrom g [] res ∧ (∀ p ∈ entries, p.1 ∈ res) ∧ (∀ x ∈ order, x ∈ res) := by
  intro entries
  induction entries with
  | nil =>
    intro order res _ h hord
    simp only [ooeLoop] at h
    cases h
    exact ⟨hord, by simp, fun x hx => hx⟩
  | cons entry rest ih =>
    intro order res hlook h hord
    simp only [ooeLoop] at h
    cases hr : updateOrderInSubset fuel g entry order with
    | err m => rw [hr] at h; simp at h
    | crash m => rw [hr] at h; simp at h
    | fuelOut => rw [hr] at h; simp at h
    | ok r =>
      rw [hr] at h
      simp only [Outcome.bind_ok] at h
      have hentry := hlook entry (by simp)
      obtain ⟨hsup, hmem⟩ := (updInv fuel).1 g entry.1 entry.2 order r hentry
        (by rcases entry with ⟨nm, deps⟩; exact hr) hord
      have hord2 : SupFrom g [] (order ++ r) := by
        refine supFrom_concat hord (supFrom_mono ?_ hsup)
        intro x hx
        simpa using hx
      obtain ⟨h1, h2, h3⟩ := ih (order ++ r) res
        (fun p hp => hlook p (by simp [hp])) h hord2
      refine ⟨h1, ?_, fun x hx => h3 x (by simp [hx])⟩
      intro p hp
      rcases List.mem_cons.1 hp with rfl | hp
      · exact h3 p.1 hmem
      · exact h2 p hp

theorem dedupKeys_mem {α : Type} :
    ∀ (l : List (String × α)) (seen : List String) (k : String) (v : α),
      (k, v) ∈ dedupKeys seen l → k ∉ seen ∧ l.lookup k = some v := by
  intro l
  induction l with
  | nil => intro seen k v h; simp [dedupKeys] at h
  | cons p rest ih =>
    intro seen k v h
    obtain ⟨k0, v0⟩ := p
    simp only [dedupKeys] at h
    split at h
    · rename_i hseen
      obtain ⟨h1, h2⟩ := ih seen k v h
      have hne : k ≠ k0 := by
        intro rfl0
        subst rfl0
        simp only [List.contains_iff_exists_mem_beq] at hseen
        obtain ⟨a, ha, hb⟩ := hseen
        rw [beq_iff_eq] at hb
        subst hb
        exact h1 ha
      refine ⟨h1, ?_⟩
      simp only [List.lookup]
      rw [beq_eq_false_iff_ne.2 hne]
      exact h2
    · rename_i hseen
      rcases List.mem_cons.1 h with heq | h
      · cases heq
        refine ⟨by simpa using hseen, ?_⟩
        simp [List.lookup]
      · obtain ⟨h1, h2⟩ := ih (k0 :: seen) k v h
        have hne : k ≠ k0 := fun rfl0 => h1 (by simp [rfl0])
        refine ⟨fun hk => h1 (by simp [hk]), ?_⟩
        simp only [List.lookup]
        rw [beq_eq_false_iff_ne.2 hne]
        exact h2

theorem dedupKeys_mem_of_lookup {α : Type} :
    ∀ (l : List (String × α)) (seen : List String) (k : String) (v : α),
      k ∉ seen → l.lookup k = some v → (k, v) ∈ dedupKeys seen l := by
  intro l
  induction l with
  | nil => intro seen k v _ h; simp [List.lookup] at h
  | cons p rest ih =>
    intro seen k v hseen h
    obtain ⟨k0, v0⟩ := p
    simp only [dedupKeys]
    by_cases hk : k = k0
    · subst hk
      simp only [List.lookup, beq_self_eq_true] at h
      cases h
      rw [if_neg (by simpa using hseen)]
      simp
    · simp only [List.lookup] at h
      rw [beq_eq_false_iff_ne.2 hk] at h
      split
      · exact ih seen k v hseen h
      · exact List.mem_cons.2 (Or.inr (ih (k0 :: seen) k v
          (by simp [hseen, hk]) h))

theorem sortInsert_mem {α : Type} (p q : String × α) :
    ∀ l : List (String × α), q ∈ sortInsert p l ↔ q = p ∨ q ∈ l := by
  intro l
  induction l with
  | nil => simp [sortInsert]
  | cons x rest ih =>
    simp only [sortInsert]
    split
    · simp only [List.mem_cons, ih]
      tauto
    · simp [List.mem_cons]

theorem sortByKey_mem {α : Type} (q : String × α) :
    ∀ l : List (String × α), q ∈ sortByKey l ↔ q ∈ l := by
  intro l
  induction l with
  | nil => simp [sortByKey]
  | cons x rest ih =>
    simp only [sortByKey, sortInsert_mem, ih, List.mem_cons]

theorem supFrom_split {g : List (String × List String)} :
    ∀ (l1 : List String) (a l nm l2), SupFrom g a l → l = l1 ++ nm :: l2 →
      nm ∉ a ++ l1 → ∀ deps, g.lookup nm = some deps → ∀ d ∈ deps, d ∈ a ++ l1 := by
  intro l1
  induction l1 with
  | nil =>
    intro a l nm l2 hsup hl hnm deps hdeps d hd
    subst hl
    obtain ⟨h1, _⟩ := hsup
    rcases h1 with h1 | h1
    · exact absurd (by simpa using h1) hnm
    · simpa using h1 deps hdeps d hd
  | cons x l1' ih =>
    intro a l nm l2 hsup hl hnm deps hdeps d hd
    subst hl
    obtain ⟨_, htail⟩ := hsup
    have := ih (a ++ [x]) (l1' ++ nm :: l2) nm l2 htail rfl
      (by simpa using hnm) deps hdeps d hd
    simpa using this

end Ir

theorem getOrder_supported (fuel : Nat) (ast : AST)
    (graph : List (String × List String)) (order : List String)
    (hg : Ir.depEntries fuel ast = .ok graph)
    (h : Ir.getOrderOfExecution fuel ast = .ok order) :
    Ir.SupFrom graph [] order ∧ ∀ k v, graph.lookup k = some v → k ∈ order := by
  unfold Ir.getOrderOfExecution at h
  rw [hg] at h
  simp only [Outcome.bind_ok] at h
  have hlook : ∀ p ∈ Ir.sortByKey (Ir.dedupKeys [] graph),
      graph.lookup p.1 = some p.2 := by
    intro p hp
    have hm := (Ir.sortByKey_mem p _).1 hp
    rcases p with ⟨k, v⟩
    exact (Ir.dedupKeys_mem graph [] k v hm).2
  obtain ⟨h1, h2, _⟩ := Ir.ooeLoop_inv fuel graph _ [] order hlook h trivial
  refine ⟨h1, ?_⟩
  intro k v hkv
  exact h2 (k, v) ((Ir.sortByKey_mem (k, v) _).2
    (Ir.dedupKeys_mem_of_lookup graph [] k v (by simp) hkv))

/-! ## Claim theorems -/

/-- C1.  The claim says the AST interpreter, the IR interpreter and the stack
VM agree bit-for-bit on every `rand`-free program; the code violates it.  On
`cell a: if 1 > 0 ? 5 : 7;` (no parameters, no `rand`) the AST interpreter
returns `a = 5`, but lowering with `ir.rs`'s `code_gen` and running
`ir_interpreter.rs`'s `run` returns `a = 1`: the interpreter's taken
`JMPCompare` sets `ip` to its target and then still executes the loop's
`ip += 1`, so the first instruction of the true branch (`Mov Const(5) → A`)
is skipped and the stale accumulator (holding the comparison's left operand
`1`) is stored as the cell's value. -/
theorem c1_engines_disagree_on_taken_branch :
    AstInterpreter.run 9 condProg ["a"] [] [] = .ok [("a", (5 : ℚ))] ∧
    (Ir.codeGen 9 condProg).bind (fun instrs => IrInterpreter.run 30 instrs [] []) =
      .ok [("a", (1 : ℚ))] ∧
    (5 : ℚ) ≠ 1 :=
  ⟨of_decide_eq_true (by with_unfolding_all rfl),
   of_decide_eq_true (by with_unfolding_all rfl),
   of_decide_eq_true (by with_unfolding_all rfl)⟩

/-- C2.  The claim says any cyclic AST fails with `CycleError` on every
engine, the IR path surfacing the cycle as an error rather than diverging.
The code diverges instead, on both paths: on `cell a: b; cell b: a;` the
order-of-execution computation (`get_order_of_execution`, hence lowering)
recurses forever for every amount of fuel, and on `cell a: 1 + a;` the AST
interpreter loops forever (its per-call `pop` removes the cycle marker after
the first operand), so neither returns a `CycleError`. -/
theorem c2_cycles_diverge_instead_of_erroring :
    (∀ fuel : Nat, Ir.getOrderOfExecution fuel cycleProg = .fuelOut) ∧
    (∀ fuel : Nat, AstInterpreter.run fuel selfCycleProg ["a"] [] [] = .fuelOut) := by
  constructor
  · intro fuel
    rcases fuel with _ | f
    · rfl
    · rcases f with _ | g
      · rfl
      · have h := (cycleUpdate_fuelOut (g + 2)).1
        simp only [cycleGraph] at h
        have hs : Ir.sortByKey (Ir.dedupKeys ([] : List String)
            [("b", ["a"]), ("a", ["b"])]) = [("a", ["b"]), ("b", ["a"])] :=
          of_decide_eq_true (by with_unfolding_all rfl)
        have e1 : Ir.getOrderOfExecution (g+2) cycleProg =
            Ir.ooeLoop (g+2) [("b", ["a"]), ("a", ["b"])]
              (Ir.sortByKey (Ir.dedupKeys [] [("b", ["a"]), ("a", ["b"])])) [] := rfl
        rw [hs] at e1
        rw [e1]
        simp only [Ir.ooeLoop]
        rw [h]
        rfl
  · intro fuel
    have h := selfCycle_runExpr_fuelOut fuel
    simp only [selfCycleCtx, selfCycleExpr] at h
    simp only [AstInterpreter.run, AstInterpreter.buildContext,
      AstInterpreter.runQueries, selfCycleProg, List.lookup]
    simp [h]

/-- C3 counterexample.  The claim says all five binary operators lower the
right operand first.  For `Add` (and `Mul`) `code_gen_expr` lowers the LEFT
operand first: the code emitted for `1 + 2` begins with the lowering of `1`
(namely `Mov Const(1) → A`), not with the lowering of the right operand `2`
(which is `[Mov Const(2) → A]`). -/
theorem c3_add_emits_left_operand_first :
    Ir.codeGenExpr 9 0 0 (.add (.num 1) (.num 2)) =
      .ok (1, [.mov (.const 1) .accumulator, .mov .accumulator (.var 0),
               .mov (.const 2) .accumulator, .add (.var 0)]) ∧
    Ir.codeGenExpr 9 0 0 (.num 2) = .ok (0, [.mov (.const 2) .accumulator]) ∧
    [Ir.Instruction.mov (.const 1) .accumulator, .mov .accumulator (.var 0),
     .mov (.const 2) .accumulator, .add (.var 0)].take 1 ≠
      [Ir.Instruction.mov (.const 2) .accumulator] :=
  ⟨of_decide_eq_true (by with_unfolding_all rfl),
   of_decide_eq_true (by with_unfolding_all rfl),
   of_decide_eq_true (by with_unfolding_all rfl)⟩

/-- C3 amended.  Only `Sub`, `Div` and `Mod` lower the right operand first
(stashing it with an intervening `Mov A → Var`), while `Add` and `Mul` lower
the LEFT operand first; in each case the operator instruction comes last.
The hypotheses name the code each operand lowers to (at the stack index and
instruction offset the other operand's code forces). -/
theorem c3_operand_order (fuel sp base : Nat) (l r : Expr)
    (spl spr : Nat) (cl cr : List Ir.Instruction) :
    (Ir.codeGenExpr fuel sp base l = .ok (spl, cl) →
     Ir.codeGenExpr fuel (spl + 1) (base + cl.length + 1) r = .ok (spr, cr) →
     Ir.codeGenExpr (fuel + 1) sp base (.add l r) =
       .ok (spr, cl ++ [.mov .accumulator (.var spl)] ++ cr ++ [.add (.var spl)]) ∧
     Ir.codeGenExpr (fuel + 1) sp base (.mul l r) =
       .ok (spr, cl ++ [.mov .accumulator (.var spl)] ++ cr ++ [.mul (.var spl)])) ∧
    (Ir.codeGenExpr fuel sp base r = .ok (spr, cr) →
     Ir.codeGenExpr fuel (spr + 1) (base + cr.length + 1) l = .ok (spl, cl) →
     Ir.codeGenExpr (fuel + 1) sp base (.sub l r) =
       .ok (spl, cr ++ [.mov .accumulator (.var spr)] ++ cl ++ [.sub (.var spr)]) ∧
     Ir.codeGenExpr (fuel + 1) sp base (.div l r) =
       .ok (spl, cr ++ [.mov .accumulator (.var spr)] ++ cl ++ [.div (.var spr)]) ∧
     Ir.codeGenExpr (fuel + 1) sp base (.mod l r) =
       .ok (spl, cr ++ [.mov .accumulator (.var spr)] ++ cl ++ [.mod (.var spr)])) := by
  constructor
  · intro h1 h2
    constructor <;> simp [Ir.codeGenExpr, h1, h2]
  · intro h1 h2
    refine ⟨?_, ?_, ?_⟩ <;> simp [Ir.codeGenExpr, h1, h2]

/-- Witness for `c3_operand_order` at `1 + 2` and `1 - 2`. -/
theorem c3_operand_order_witness :
    Ir.codeGenExpr 2 0 0 (.add (.num 1) (.num 2)) =
      .ok (1, [.mov (.const 1) .accumulator, .mov .accumulator (.var 0),
               .mov (.const 2) .accumulator, .add (.var 0)]) ∧
    Ir.codeGenExpr 2 0 0 (.sub (.num 1) (.num 2)) =
      .ok (1, [.mov (.const 2) .accumulator, .mov .accumulator (.var 0),
               .mov (.const 1) .accumulator, .sub (.var 0)]) :=
  ⟨((c3_operand_order 1 0 0 (.num 1) (.num 2) 0 1
        [.mov (.const 1) .accumulator] [.mov (.const 2) .accumulator]).1
      (of_decide_eq_true (by with_unfolding_all rfl))
      (of_decide_eq_true (by with_unfolding_all rfl))).1,
   (((c3_operand_order 1 0 0 (.num 1) (.num 2) 1 0
        [.mov (.const 1) .accumulator] [.mov (.const 2) .accumulator]).2
      (of_decide_eq_true (by with_unfolding_all rfl))
      (of_decide_eq_true (by with_unfolding_all rfl))).1)⟩

/-- C4 counterexample.  The claim's layout is
`[cmp][JIF→false][T-body][J→end][F-body][Nop]`, i.e. the instruction after
the conditional branch would be the true-branch body and the branch's taken
target the false branch.  Lowering `if 1 > 0 ? 5 : 7` actually places the
FALSE branch body (`Mov Const(7) → A`, index 4) straight after the
`JMPCompare`, whose taken target (6) is the TRUE branch body. -/
theorem c4_false_branch_emitted_first :
    Ir.codeGenExpr 9 0 0 (.condition (.num 1) (.num 0) .greater (.num 5) (.num 7)) =
      .ok (1, [.mov (.const 0) .accumulator, .mov .accumulator (.var 0),
               .mov (.const 1) .accumulator, .jmpCompare .greater (.var 0) 6,
               .mov (.const 7) .accumulator, .jmp 7,
               .mov (.const 5) .accumulator, .nop]) ∧
    [Ir.Instruction.mov (.const 0) .accumulator, .mov .accumulator (.var 0),
     .mov (.const 1) .accumulator, .jmpCompare .greater (.var 0) 6,
     .mov (.const 7) .accumulator, .jmp 7,
     .mov (.const 5) .accumulator, .nop].get? 4 =
      some (.mov (.const 7) .accumulator) ∧
    Ir.Instruction.mov (.const 7) .accumulator ≠ .mov (.const 5) .accumulator :=
  ⟨of_decide_eq_true (by with_unfolding_all rfl),
   of_decide_eq_true (by with_unfolding_all rfl),
   of_decide_eq_true (by with_unfolding_all rfl)⟩

/-- C4 amended.  Lowering `if lhs OP rhs ? T : F` emits, in memory order:
the code of `rhs`, a `Mov` stashing it, the code of `lhs` (leaving the left
operand in the accumulator), then a `JMPCompare` — taken when the comparison
is TRUE — whose target is the start of the TRUE-branch body, then the
FALSE-branch body, then an unconditional `JMP` to the terminal `Nop`, then
the true-branch body, then the `Nop`; the `JMPCompare` target points just
past the false branch's `JMP`. -/
theorem c4_condition_layout (fuel sp base : Nat) (lhs rhs tb fb : Expr)
    (op : Operator) (sp1 sp2 sp3 sp4 : Nat) (c1 c2 c3 c4 : List Ir.Instruction)
    (h1 : Ir.codeGenExpr fuel sp base rhs = .ok (sp1, c1))
    (h2 : Ir.codeGenExpr fuel (sp1 + 1) (base + c1.length + 1) lhs = .ok (sp2, c2))
    (h3 : Ir.codeGenExpr fuel sp2 (base + c1.length + 1 + c2.length + 1) fb =
      .ok (sp3, c3))
    (h4 : Ir.codeGenExpr fuel sp3 (base + c1.length + 1 + c2.length + 1 + c3.length + 1)
      tb = .ok (sp4, c4)) :
    Ir.codeGenExpr (fuel + 1) sp base (.condition lhs rhs op tb fb) =
      .ok (sp4,
        c1 ++ [.mov .accumulator (.var sp1)] ++ c2
          ++ [.jmpCompare op (.var sp1)
                (base + c1.length + 1 + c2.length + 1 + c3.length + 1)]
          ++ c3
          ++ [.jmp (base + c1.length + 1 + c2.length + 1 + c3.length + 1 + c4.length)]
          ++ c4 ++ [.nop]) := by
  simp [Ir.codeGenExpr, h1, h2, h3, h4]

/-- Witness for `c4_condition_layout` at `if 1 > 0 ? 5 : 7`. -/
theorem c4_condition_layout_witness :
    Ir.codeGenExpr 2 0 0 (.condition (.num 1) (.num 0) .greater (.num 5) (.num 7)) =
      .ok (1, [.mov (.const 0) .accumulator, .mov .accumulator (.var 0),
               .mov (.const 1) .accumulator, .jmpCompare .greater (.var 0) 6,
               .mov (.const 7) .accumulator, .jmp 7,
               .mov (.const 5) .accumulator, .nop]) :=
  c4_condition_layout 1 0 0 (.num 1) (.num 0) (.num 5) (.num 7) .greater
    0 1 1 1 [.mov (.const 0) .accumulator] [.mov (.const 1) .accumulator]
    [.mov (.const 7) .accumulator] [.mov (.const 5) .accumulator]
    (of_decide_eq_true (by with_unfolding_all rfl))
    (of_decide_eq_true (by with_unfolding_all rfl))
    (of_decide_eq_true (by with_unfolding_all rfl))
    (of_decide_eq_true (by with_unfolding_all rfl))

/-- C8 counterexample.  The claim says an unknown built-in in a `Call`
surfaces as a `VMError` returned to the caller; actually `vm.rs` has
`_ => {}` in the `Call` arm, so `Call("nosuch")` is silently ignored and the
run succeeds. -/
theorem c8_unknown_builtin_silently_ignored :
    Vm.run 5 [.call "nosuch"] [] [] [] = .ok [] ∧
    (Vm.run 5 [.call "nosuch"] [] [] []).isErr = false :=
  ⟨of_decide_eq_true (by with_unfolding_all rfl),
   of_decide_eq_true (by with_unfolding_all rfl)⟩

/-- C8 amended.  The VM's operand stack is fixed at 64 slots and a missing
parameter is returned as an error, but the other claimed failure modes do not
surface as `VMError`: stack underflow and overflow are Rust panics (array
index / `usize` underflow), an unknown built-in in `Call` is silently
ignored, and an out-of-range jump target silently ends execution (the
`while let Some(inst) = ir.instructions.get(ip)` loop just stops). -/
theorem c8_vm_failure_modes :
    Vm.Stack.default.data.length = 64 ∧
    Vm.run 5 [.add] [] [] [] = .crash "attempt to subtract with overflow" ∧
    Vm.run 70 (List.replicate 65 (.loadConst 0)) [] [] [] =
      .crash "index out of bounds" ∧
    Vm.run 5 [.loadParam "p"] [] [] [] = .err "param not found" ∧
    Vm.run 5 [.call "nosuch2"] [] [] [] = .ok [] ∧
    Vm.run 5 [.jmp 99] [] [] [] = .ok [] :=
  ⟨of_decide_eq_true (by with_unfolding_all rfl),
   of_decide_eq_true (by with_unfolding_all rfl),
   of_decide_eq_true (by with_unfolding_all rfl),
   of_decide_eq_true (by with_unfolding_all rfl),
   of_decide_eq_true (by with_unfolding_all rfl),
   of_decide_eq_true (by with_unfolding_all rfl)⟩

/-- C5.  The parser applies uniform right-associative grouping to all five
binary operators with no precedence distinction: every token stream
`NUMBER OP1 n1 OP2 n2 …` parses to the fully right-nested expression; in
particular `1 + 2 * 3` parses as `1 + (2 * 3)` and `1 - 2 - 3` parses as
`1 - (2 - 3)`, which the AST interpreter evaluates to `2`. -/
theorem c5_uniform_right_assoc :
    (∀ (a : ℚ) (l : List (Parser.Token × ℚ)) (fuel : Nat),
        (∀ p ∈ l, p.1.isOperator = true) → l.length + 2 ≤ fuel →
        Parser.parseExpr fuel (Parser.chainTokens a l) =
          (.ok (Parser.rightNest a l), [])) ∧
    Parser.parseExpr 9 [.Number 1, .Add, .Number 2, .Mul, .Number 3] =
      (.ok (.add (.num 1) (.mul (.num 2) (.num 3))), []) ∧
    Parser.parseExpr 9 [.Number 1, .Sub, .Number 2, .Sub, .Number 3] =
      (.ok (.sub (.num 1) (.sub (.num 2) (.num 3))), []) ∧
    AstInterpreter.runExpr 9 [] (.sub (.num 1) (.sub (.num 2) (.num 3))) [] [] =
      .ok (2, [], []) := by
  refine ⟨fun a l => ?_, rfl, rfl, of_decide_eq_true (by with_unfolding_all rfl)⟩
  induction l generalizing a with
  | nil =>
    intro fuel _ hf
    obtain ⟨f, rfl⟩ : ∃ f, fuel = f + 2 := ⟨fuel - 2, by omega⟩
    exact parseExpr_single_num f a
  | cons p rest ih =>
    obtain ⟨op, b⟩ := p
    intro fuel hop hf
    obtain ⟨f, rfl⟩ : ∃ f, fuel = f + 2 := ⟨fuel - 2, by omega⟩
    have hop1 : op.isOperator = true := hop (op, b) (by simp)
    have ihb := ih b (f + 1) (fun q hq => hop q (by simp [hq]))
      (by simp only [List.length_cons] at hf; omega)
    simp only [Parser.chainTokens, Parser.rightNest]
    exact parseExpr_num_op_step f a op _ _ _ hop1 ihb

/-- Witness for `c5_uniform_right_assoc` at the stream `1 + 2 * 3`. -/
theorem c5_uniform_right_assoc_witness :
    Parser.parseExpr 4 (Parser.chainTokens 1 [(.Add, 2), (.Mul, 3)]) =
      (.ok (Parser.rightNest 1 [(.Add, 2), (.Mul, 3)]), []) :=
  c5_uniform_right_assoc.1 1 [(.Add, 2), (.Mul, 3)] 4 (by decide) (by decide)

/-- C7.  In the AST interpreter the built-in `int(x)` returns `x` rounded to
the nearest integer (`f64::round`, half away from zero), while the stack VM's
`Call("int")` returns `floor(x)`; consequently there is an input with
fractional part ≥ 0.5 (namely `x = 1/2`) on which the two engines disagree.
The first two conjuncts evaluate each engine on the expression `int(x)` (as
the one-cell program `[LoadConst x, Call "int"]` on the VM side) for every
value `x` and every sufficient fuel. -/
theorem c7_int_rounds_in_ast_floors_in_vm :
    (∀ (fuel : Nat) (x : ℚ),
        AstInterpreter.runExpr (fuel+2) [] (.call "int" [.num x]) [] [] =
          .ok (rustRound x, [], [])) ∧
    (∀ (fuel : Nat) (x : ℚ),
        Vm.run (fuel+3) [.loadConst x, .call "int"] [] [("x", 0)] [] =
          .ok [("x", rustFloor x)]) ∧
    (∃ x : ℚ, Int.fract x ≥ 1/2 ∧ rustRound x ≠ rustFloor x) := by
  refine ⟨fun fuel x => ?_, fun fuel x => ?_, ⟨1/2, ?_, ?_⟩⟩
  · simp [AstInterpreter.runExpr]
  · simp [Vm.run, Vm.exec, Vm.Stack.default, Vm.Stack.push, Vm.Stack.pop,
      Vm.Stack.peak, Vm.buildResult]
  · norm_num [Int.fract]
  · norm_num [rustRound, rustFloor]

/-- C9.  In any order of execution the dependency analyzer produces, every
name appears after all of the free names its expression uses (at the first
occurrence of a name, all of its dependencies — its entry in the dependency
map — have already been listed), and roots are visited in lexicographic name
order, so that for the program
`param p1; param p2; cell c: p1 + 1; cell a: 5 + c; cell test: p1 + p2 * p2 + a * p1 / (p2 + 1);`
the order is exactly `[p1, c, a, p2, test]`. -/
theorem c9_topological_order :
    (∀ (ast : AST) (fuel : Nat) (graph : List (String × List String))
        (order : List String),
        Ir.depEntries fuel ast = .ok graph →
        Ir.getOrderOfExecution fuel ast = .ok order →
        ∀ l1 nm l2, order = l1 ++ nm :: l2 → nm ∉ l1 →
          ∀ deps, graph.lookup nm = some deps → ∀ d ∈ deps, d ∈ l1) ∧
    Ir.getOrderOfExecution 99 scenario6Prog = .ok ["p1", "c", "a", "p2", "test"] := by
  constructor
  · intro ast fuel graph order hg h l1 nm l2 hsplit hnm deps hdeps d hd
    have hs := (getOrder_supported fuel ast graph order hg h).1
    have hres := Ir.supFrom_split l1 [] order nm l2 hs hsplit
      (by simpa using hnm) deps hdeps d hd
    simpa using hres
  · exact of_decide_eq_true (by with_unfolding_all rfl)

/-- Witness for `c9_topological_order`: in the order for scenario 6, the
dependency `a` of `test` is listed before `test`. -/
theorem c9_topological_order_witness :
    "a" ∈ (["p1", "c", "a", "p2"] : List String) :=
  c9_topological_order.1 scenario6Prog 99
    [("test", ["p1", "p2", "p2", "a", "p1", "p2"]), ("a", ["c"]),
     ("c", ["p1"]), ("p2", []), ("p1", [])]
    ["p1", "c", "a", "p2", "test"]
    (of_decide_eq_true (by with_unfolding_all rfl))
    c9_topological_order.2
    ["p1", "c", "a", "p2"] "test" [] rfl
    (of_decide_eq_true (by with_unfolding_all rfl))
    ["p1", "p2", "p2", "a", "p1", "p2"]
    (of_decide_eq_true (by with_unfolding_all rfl))
    "a" (of_decide_eq_true (by with_unfolding_all rfl))

/-- Helper for C10: on success, evaluating an identifier-free expression
leaves the call stack equal to the input stack with at least one entry
popped from the top (`Vec::pop` saturates on the empty stack, hence
`List.drop`). -/
theorem c10_main (e : Expr) (hfree : IdentFree e) :
    ∀ (fuel : Nat) (cmap : AstInterpreter.CellMap) (stk : List String)
      (rng : List ℚ) (v : ℚ) (stk' : List String) (rng' : List ℚ),
      AstInterpreter.runExpr fuel cmap e stk rng = .ok (v, stk', rng') →
      ∃ k, 1 ≤ k ∧ stk' = stk.drop k := by
  induction hfree with
  | num x =>
    intro fuel cmap stk rng v stk' rng' h
    rcases fuel with _ | f
    · simp [AstInterpreter.runExpr] at h
    · simp only [AstInterpreter.runExpr, Outcome.ok.injEq, Prod.mk.injEq] at h
      exact ⟨1, le_refl 1, by rw [← h.2.1, List.drop_one]⟩
  | call name arguments hargs ih =>
    intro fuel cmap stk rng v stk' rng' h
    rcases fuel with _ | f
    · simp [AstInterpreter.runExpr] at h
    · simp only [AstInterpreter.runExpr] at h
      split at h
      · -- name = "rand"
        simp only [Outcome.ok.injEq, Prod.mk.injEq] at h
        exact ⟨1, le_refl 1, by rw [← h.2.1, List.drop_one]⟩
      · -- name = "int"
        split at h
        · -- arguments = [arg0]
          rename_i arg0
          split at h
          · rename_i v0 stk2 rng2 heq
            simp only [Outcome.ok.injEq, Prod.mk.injEq] at h
            obtain ⟨k0, hk0, e0⟩ :=
              ih arg0 (by simp) f cmap stk rng v0 stk2 rng2 heq
            exact ⟨k0 + 1, by omega, by rw [← h.2.1, e0, List.tail_drop]⟩
          · rename_i hne
            exact absurd h (hne _ _ _)
        · simp at h
      · simp at h
  | add hl hr ihl ihr =>
    intro fuel cmap stk rng v stk' rng' h
    rcases fuel with _ | f
    · simp [AstInterpreter.runExpr] at h
    · simp only [AstInterpreter.runExpr] at h
      split at h
      · rename_i lv stk1 rng1 heq1
        split at h
        · rename_i rv stk2 rng2 heq2
          simp only [Outcome.ok.injEq, Prod.mk.injEq] at h
          obtain ⟨k1, hk1, e1⟩ := ihl f cmap stk rng lv stk1 rng1 heq1
          obtain ⟨k2, hk2, e2⟩ := ihr f cmap stk1 rng1 rv stk2 rng2 heq2
          refine ⟨k1 + k2 + 1, by omega, ?_⟩
          rw [← h.2.1, e2, e1, List.drop_drop, List.tail_drop]
        · rename_i hne
          exact absurd h (hne _ _ _)
      · rename_i hne
        exact absurd h (hne _ _ _)
  | mod hl hr ihl ihr =>
    intro fuel cmap stk rng v stk' rng' h
    rcases fuel with _ | f
    · simp [AstInterpreter.runExpr] at h
    · simp only [AstInterpreter.runExpr] at h
      split at h
      · rename_i lv stk1 rng1 heq1
        split at h
        · rename_i rv stk2 rng2 heq2
          simp only [Outcome.ok.injEq, Prod.mk.injEq] at h
          obtain ⟨k1, hk1, e1⟩ := ihl f cmap stk rng lv stk1 rng1 heq1
          obtain ⟨k2, hk2, e2⟩ := ihr f cmap stk1 rng1 rv stk2 rng2 heq2
          refine ⟨k1 + k2 + 1, by omega, ?_⟩
          rw [← h.2.1, e2, e1, List.drop_drop, List.tail_drop]
        · rename_i hne
          exact absurd h (hne _ _ _)
      · rename_i hne
        exact absurd h (hne _ _ _)
  | sub hl hr ihl ihr =>
    intro fuel cmap stk rng v stk' rng' h
    rcases fuel with _ | f
    · simp [AstInterpreter.runExpr] at h
    · simp only [AstInterpreter.runExpr] at h
      split at h
      · rename_i lv stk1 rng1 heq1
        split at h
        · rename_i rv stk2 rng2 heq2
          simp only [Outcome.ok.injEq, Prod.mk.injEq] at h
          obtain ⟨k1, hk1, e1⟩ := ihl f cmap stk rng lv stk1 rng1 heq1
          obtain ⟨k2, hk2, e2⟩ := ihr f cmap stk1 rng1 rv stk2 rng2 heq2
          refine ⟨k1 + k2 + 1, by omega, ?_⟩
          rw [← h.2.1, e2, e1, List.drop_drop, List.tail_drop]
        · rename_i hne
          exact absurd h (hne _ _ _)
      · rename_i hne
        exact absurd h (hne _ _ _)
  | mul hl hr ihl ihr =>
    intro fuel cmap stk rng v stk' rng' h
    rcases fuel with _ | f
    · simp [AstInterpreter.runExpr] at h
    · simp only [AstInterpreter.runExpr] at h
      split at h
      · rename_i lv stk1 rng1 heq1
        split at h
        · rename_i rv stk2 rng2 heq2
          simp only [Outcome.ok.injEq, Prod.mk.injEq] at h
          obtain ⟨k1, hk1, e1⟩ := ihl f cmap stk rng lv stk1 rng1 heq1
          obtain ⟨k2, hk2, e2⟩ := ihr f cmap stk1 rng1 rv stk2 rng2 heq2
          refine ⟨k1 + k2 + 1, by omega, ?_⟩
          rw [← h.2.1, e2, e1, List.drop_drop, List.tail_drop]
        · rename_i hne
          exact absurd h (hne _ _ _)
      · rename_i hne
        exact absurd h (hne _ _ _)
  | div hl hr ihl ihr =>
    intro fuel cmap stk rng v stk' rng' h
    rcases fuel with _ | f
    · simp [AstInterpreter.runExpr] at h
    · simp only [AstInterpreter.runExpr] at h
      split at h
      · rename_i lv stk1 rng1 heq1
        split at h
        · rename_i rv stk2 rng2 heq2
          simp only [Outcome.ok.injEq, Prod.mk.injEq] at h
          obtain ⟨k1, hk1, e1⟩ := ihl f cmap stk rng lv stk1 rng1 heq1
          obtain ⟨k2, hk2, e2⟩ := ihr f cmap stk1 rng1 rv stk2 rng2 heq2
          refine ⟨k1 + k2 + 1, by omega, ?_⟩
          rw [← h.2.1, e2, e1, List.drop_drop, List.tail_drop]
        · rename_i hne
          exact absurd h (hne _ _ _)
      · rename_i hne
        exact absurd h (hne _ _ _)
  | condition op h1 h2 h3 h4 ih1 ih2 ih3 ih4 =>
    intro fuel cmap stk rng v stk' rng' h
    rcases fuel with _ | f
    · simp [AstInterpreter.runExpr] at h
    · simp only [AstInterpreter.runExpr] at h
      split at h
      · rename_i lv stk1 rng1 heq1
        split at h
        · rename_i rv stk2 rng2 heq2
          split at h
          · rename_i v3 stk3 rng3 heq3
            simp only [Outcome.ok.injEq, Prod.mk.injEq] at h
            obtain ⟨k1, hk1, e1⟩ := ih1 f cmap stk rng lv stk1 rng1 heq1
            obtain ⟨k2, hk2, e2⟩ := ih2 f cmap stk1 rng1 rv stk2 rng2 heq2
            by_cases hc : op.compare lv rv
            · rw [if_pos hc] at heq3
              obtain ⟨k3, hk3, e3⟩ := ih3 f cmap stk2 rng2 v3 stk3 rng3 heq3
              refine ⟨k1 + k2 + k3 + 1, by omega, ?_⟩
              rw [← h.2.1, e3, e2, e1, List.drop_drop, List.drop_drop, List.tail_drop]
              congr 1
              omega
            · rw [if_neg hc] at heq3
              obtain ⟨k3, hk3, e3⟩ := ih4 f cmap stk2 rng2 v3 stk3 rng3 heq3
              refine ⟨k1 + k2 + k3 + 1, by omega, ?_⟩
              rw [← h.2.1, e3, e2, e1, List.drop_drop, List.drop_drop, List.tail_drop]
              congr 1
              omega
          · simp at h
          · simp at h
          · simp at h
        · rename_i hne
          exact absurd h (hne _ _ _)
      · rename_i hne
        exact absurd h (hne _ _ _)

/-- C10.  Every successful `run_expr` call pops an entry from the
cycle-detection call stack whether or not it pushed one (pushes happen only
when resolving a `Pending` identifier): evaluating any identifier-free
subexpression (which resolves no `Pending` identifier) drops at least one
name from the stack, so the name just pushed for the enclosing cell — the
top of the stack — is no longer on the call stack afterwards, and the stack
does not remain the chain of currently-evaluating cells. -/
theorem c10_run_expr_pops (fuel : Nat) (cmap : AstInterpreter.CellMap)
    (e : Expr) (stk : List String) (rng : List ℚ) (v : ℚ) (stk' : List String)
    (rng' : List ℚ) (hfree : IdentFree e)
    (h : AstInterpreter.runExpr fuel cmap e stk rng = .ok (v, stk', rng')) :
    (∃ k, 1 ≤ k ∧ stk' = stk.drop k) ∧
    (∀ nm base, stk = nm :: base → nm ∉ base → nm ∉ stk') := by
  have hmain := c10_main e hfree fuel cmap stk rng v stk' rng' h
  refine ⟨hmain, ?_⟩
  rintro nm base rfl hnm hmem
  obtain ⟨k, hk, hdrop⟩ := hmain
  subst hdrop
  have hsplit : (nm :: base).drop k = base.drop (k - 1) := by
    rcases k with _ | k0
    · omega
    · simp
  rw [hsplit] at hmem
  exact hnm (List.drop_subset _ _ hmem)

/-- Witness for `c10_run_expr_pops`: evaluating the subexpression `3` with
`"a"` freshly pushed pops it. -/
theorem c10_run_expr_pops_witness :
    (∃ k, 1 ≤ k ∧ ([] : List String) = (["a"] : List String).drop k) ∧
    (∀ nm base, (["a"] : List String) = nm :: base → nm ∉ base →
      nm ∉ ([] : List String)) :=
  c10_run_expr_pops 1 [] (.num 3) ["a"] [] 3 [] [] (IdentFree.num 3)
    (of_decide_eq_true (by with_unfolding_all rfl))

end CellScript

namespace CellScript
namespace Ir

theorem collectDeps_fail {g : List (String × List String)} {d : String}
    (hd : g.lookup d = none) :
    ∀ ds : List String, d ∈ ds → ∀ pairs, collectDeps g ds ≠ .ok pairs := by
  intro ds
  induction ds with
  | nil => simp
  | cons d0 rest ih =>
    intro hmem pairs h
    simp only [collectDeps] at h
    rcases List.mem_cons.1 hmem with rfl | hmem
    · rw [hd] at h
      simp at h
    · split at h
      · simp at h
      · cases hr : collectDeps g rest with
        | ok r =>
          exact ih hmem r hr
        | err m => rw [hr] at h; simp at h
        | crash m => rw [hr] at h; simp at h
        | fuelOut => rw [hr] at h; simp at h

theorem bad_upd {g : List (String × List String)} {nm d : String}
    {deps : List String} (hdeps : d ∈ deps) (hd : g.lookup d = none) :
    ∀ (fuel : Nat) (order : List String),
      (∀ x ∈ order, (g.lookup x).isSome = true) → nm ∉ order →
      ∀ res, updateOrderInSubset fuel g (nm, deps) order ≠ .ok res := by
  intro fuel order hclosed hnm res h
  rcases fuel with _ | f
  · simp [updateOrderInSubset] at h
  · simp only [updateOrderInSubset] at h
    split at h
    · rename_i hmem
      exact hnm (by simpa using hmem)
    · have hdo : d ∉ order := by
        intro hdo
        have := hclosed d hdo
        rw [hd] at this
        simp at this
      have hdf : d ∈ deps.filter fun x => ¬ order.contains x := by
        refine List.mem_filter.2 ⟨hdeps, ?_⟩
        simp [hdo]
      cases hp : collectDeps g (deps.filter fun x => ¬ order.contains x) with
      | ok pairs => exact collectDeps_fail hd _ hdf pairs hp
      | err m => rw [hp] at h; simp at h
      | crash m => rw [hp] at h; simp at h
      | fuelOut => rw [hp] at h; simp at h

end Ir
end CellScript

namespace CellScript
namespace Ir

theorem avoidInv {g : List (String × List String)} {nm d : String}
    {deps : List String} (hlnm : g.lookup nm = some deps) (hdeps : d ∈ deps)
    (hd : g.lookup d = none) : ∀ fuel : Nat,
    (∀ (node : String × List String) (order res : List String),
       g.lookup node.1 = some node.2 →
       updateOrderInSubset fuel g node order = .ok res →
       (∀ x ∈ order, (g.lookup x).isSome = true) →
       (∀ x ∈ res, (g.lookup x).isSome = true) ∧ (nm ∉ order → nm ∉ res)) ∧
    (∀ (pairs : List (String × List String)) (order res : List String),
       (∀ p ∈ pairs, g.lookup p.1 = some p.2) →
       updateOrderDeps fuel g pairs order = .ok res →
       (∀ x ∈ order, (g.lookup x).isSome = true) →
       (∀ x ∈ res, (g.lookup x).isSome = true) ∧ (nm ∉ order → nm ∉ res)) := by
  intro fuel
  induction fuel with
  | zero =>
    constructor
    · intro node order res _ h
      simp [updateOrderInSubset] at h
    · intro pairs order res _ h
      simp [updateOrderDeps] at h
  | succ f ih =>
    obtain ⟨ihU, ihD⟩ := ih
    constructor
    · intro node order res hkey h hclosed
      obtain ⟨n0, d0⟩ := node
      by_cases hn0 : n0 = nm
      · rw [hn0] at hkey h
        rw [hlnm] at hkey
        injection hkey with hdd
        simp only at hdd
        rw [← hdd] at h
        by_cases hmo : nm ∈ order
        · simp only [updateOrderInSubset] at h
          split at h
          · cases h
            exact ⟨by simp, fun hn => absurd hmo hn⟩
          · rename_i hmem
            exact absurd hmo (by simpa using hmem)
        · exact absurd h (bad_upd hdeps hd (f+1) order hclosed hmo res)
      · simp only [updateOrderInSubset] at h
        split at h
        · cases h
          exact ⟨by simp, by simp⟩
        · rename_i hmem
          cases hp : collectDeps g (d0.filter fun x => ¬ order.contains x) with
          | err m => rw [hp] at h; simp at h
          | crash m => rw [hp] at h; simp at h
          | fuelOut => rw [hp] at h; simp at h
          | ok pairs =>
            rw [hp] at h
            simp only [Outcome.bind_ok] at h
            obtain ⟨_, hplook⟩ := collectDeps_ok hp
            cases hres : updateOrderDeps f g pairs order with
            | err m => rw [hres] at h; simp at h
            | crash m => rw [hres] at h; simp at h
            | fuelOut => rw [hres] at h; simp at h
            | ok result =>
              rw [hres] at h
              simp only [Outcome.bind_ok] at h
              cases h
              obtain ⟨hc1, hc2⟩ := ihD pairs order result hplook hres hclosed
              constructor
              · intro x hx
                rcases List.mem_append.1 hx with hx | hx
                · exact hc1 x hx
                · simp only [List.mem_singleton] at hx
                  subst hx
                  rw [hkey]
                  simp
              · intro hnmo hmemres
                rcases List.mem_append.1 hmemres with hx | hx
                · exact hc2 hnmo hx
                · simp only [List.mem_singleton] at hx
                  exact hn0 hx.symm
    · intro pairs order res hplook h hclosed
      rcases pairs with _ | ⟨p, rest⟩
      · rcases f with _ | f0 <;> simp only [updateOrderDeps] at h <;> cases h <;>
          exact ⟨by simp, by simp⟩
      · simp only [updateOrderDeps] at h
        cases hr : updateOrderInSubset f g p order with
        | err m => rw [hr] at h; simp at h
        | crash m => rw [hr] at h; simp at h
        | fuelOut => rw [hr] at h; simp at h
        | ok r =>
          rw [hr] at h
          simp only [Outcome.bind_ok] at h
          cases hrr : updateOrderDeps f g rest order with
          | err m => rw [hrr] at h; simp at h
          | crash m => rw [hrr] at h; simp at h
          | fuelOut => rw [hrr] at h; simp at h
          | ok rr =>
            rw [hrr] at h
            simp only [Outcome.bind_ok] at h
            cases h
            obtain ⟨h1, h2⟩ := ihU p order r (hplook p (by simp)) (by
              rcases p with ⟨pn, pd⟩
              exact hr) hclosed
            obtain ⟨h3, h4⟩ := ihD rest order rr
              (fun q hq => hplook q (by simp [hq])) hrr hclosed
            constructor
            · intro x hx
              rcases List.mem_append.1 hx with hx | hx
              · exact h1 x hx
              · exact h3 x hx
            · intro hnmo hmm
              rcases List.mem_append.1 hmm with hx | hx
              · exact h2 hnmo hx
              · exact h4 hnmo hx

end Ir
end CellScript

namespace CellScript
namespace Ir

theorem bad_loop {g : List (String × List String)} {nm d : String}
    {deps : List String} (hlnm : g.lookup nm = some deps) (hdeps : d ∈ deps)
    (hd : g.lookup d = none) :
    ∀ (entries : List (String × List String)) (fuel : Nat) (order : List String),
      (∀ p ∈ entries, g.lookup p.1 = some p.2) →
      (∀ x ∈ order, (g.lookup x).isSome = true) →
      nm ∉ order → (nm, deps) ∈ entries →
      ∀ res, ooeLoop fuel g entries order ≠ .ok res := by
  intro entries
  induction entries with
  | nil => simp
  | cons entry rest ih =>
    intro fuel order hke hclosed hnm hbadm res h
    simp only [ooeLoop] at h
    cases hr : updateOrderInSubset fuel g entry order with
    | err m => rw [hr] at h; simp at h
    | crash m => rw [hr] at h; simp at h
    | fuelOut => rw [hr] at h; simp at h
    | ok r =>
      rw [hr] at h
      simp only [Outcome.bind_ok] at h
      rcases List.mem_cons.1 hbadm with heq | hbadm
      · rw [← heq] at hr
        exact absurd hr (bad_upd hdeps hd fuel order hclosed hnm r)
      · obtain ⟨h1, h2⟩ := (avoidInv hlnm hdeps hd fuel).1 entry order r
          (hke entry (by simp)) hr hclosed
        refine ih fuel (order ++ r) (fun p hp => hke p (by simp [hp])) ?_ ?_ hbadm res h
        · intro x hx
          rcases List.mem_append.1 hx with hx | hx
          · exact hclosed x hx
          · exact h1 x hx
        · intro hx
          rcases List.mem_append.1 hx with hx | hx
          · exact hnm hx
          · exact h2 hnm hx

theorem undeclared_lowering_fails {ast : AST} {fuel : Nat}
    {graph : List (String × List String)} {nm d : String} {deps : List String}
    (hg : depEntries fuel ast = .ok graph)
    (hlnm : graph.lookup nm = some deps) (hdeps : d ∈ deps)
    (hd : graph.lookup d = none) :
    (codeGen fuel ast).isOk = false := by
  unfold codeGen
  cases ho : getOrderOfExecution fuel ast with
  | ok order =>
    exfalso
    unfold getOrderOfExecution at ho
    rw [hg] at ho
    simp only [Outcome.bind_ok] at ho
    refine bad_loop hlnm hdeps hd (sortByKey (dedupKeys [] graph)) fuel []
      ?_ (by simp) (by simp) ?_ order ho
    · intro p hp
      have hm := (sortByKey_mem p _).1 hp
      rcases p with ⟨k, v⟩
      exact (dedupKeys_mem graph [] k v hm).2
    · exact (sortByKey_mem (nm, deps) _).2
        (dedupKeys_mem_of_lookup graph [] nm deps (by simp) hlnm)
  | err m => simp [Outcome.bind, Outcome.isOk]
  | crash m => simp [Outcome.bind, Outcome.isOk]
  | fuelOut => simp [Outcome.bind, Outcome.isOk]

end Ir
end CellScript

namespace CellScript
namespace Ir

theorem collectDeps_total {g : List (String × List String)} :
    ∀ ds : List String, (∀ x ∈ ds, (g.lookup x).isSome = true) →
      ∃ pairs, collectDeps g ds = .ok pairs := by
  intro ds
  induction ds with
  | nil => exact fun _ => ⟨[], rfl⟩
  | cons d0 rest ih =>
    intro hk
    obtain ⟨dl, hdl⟩ := Option.isSome_iff_exists.1 (hk d0 (by simp))
    obtain ⟨pr, hpr⟩ := ih fun x hx => hk x (by simp [hx])
    refine ⟨(d0, dl) :: pr, ?_⟩
    simp only [collectDeps]
    rw [hdl, hpr]
    rfl

theorem noerrInv {g : List (String × List String)}
    (hclosed : ∀ k v, g.lookup k = some v → ∀ x ∈ v, (g.lookup x).isSome = true) :
    ∀ fuel : Nat,
    (∀ (node : String × List String) (order : List String),
       g.lookup node.1 = some node.2 →
       updateOrderInSubset fuel g node order = .fuelOut ∨
         ∃ r, updateOrderInSubset fuel g node order = .ok r) ∧
    (∀ (pairs : List (String × List String)) (order : List String),
       (∀ p ∈ pairs, g.lookup p.1 = some p.2) →
       updateOrderDeps fuel g pairs order = .fuelOut ∨
         ∃ r, updateOrderDeps fuel g pairs order = .ok r) := by
  intro fuel
  induction fuel with
  | zero => exact ⟨fun _ _ _ => Or.inl rfl, fun _ _ _ => Or.inl rfl⟩
  | succ f ih =>
    obtain ⟨ihU, ihD⟩ := ih
    constructor
    · intro node order hkey
      obtain ⟨n0, d0⟩ := node
      simp only [updateOrderInSubset]
      split
      · exact Or.inr ⟨[], rfl⟩
      · obtain ⟨pairs, hpairs⟩ := collectDeps_total
          (d0.filter fun x => ¬ order.contains x) (by
            intro x hx
            exact hclosed n0 d0 hkey x (List.mem_filter.1 hx).1)
        rw [hpairs]
        simp only [Outcome.bind_ok]
        obtain ⟨_, hpl⟩ := collectDeps_ok hpairs
        rcases ihD pairs order hpl with hfo | ⟨r, hr⟩
        · rw [hfo]
          exact Or.inl rfl
        · rw [hr]
          exact Or.inr ⟨_, rfl⟩
    · intro pairs order hpl
      rcases pairs with _ | ⟨p, rest⟩
      · simp only [updateOrderDeps]
        exact Or.inr ⟨[], rfl⟩
      · simp only [updateOrderDeps]
        rcases ihU p order (hpl p (by simp)) with hfo | ⟨r, hr⟩
        · rcases p with ⟨pn, pd⟩
          rw [hfo]
          exact Or.inl rfl
        · rcases p with ⟨pn, pd⟩
          rw [hr]
          simp only [Outcome.bind_ok]
          rcases ihD rest order (fun q hq => hpl q (by simp [hq])) with hfo2 | ⟨rr, hrr⟩
          · rw [hfo2]
            exact Or.inl rfl
          · rw [hrr]
            exact Or.inr ⟨_, rfl⟩

theorem noerr_loop {g : List (String × List String)}
    (hclosed : ∀ k v, g.lookup k = some v → ∀ x ∈ v, (g.lookup x).isSome = true)
    (fuel : Nat) :
    ∀ (entries : List (String × List String)) (order : List String),
      (∀ p ∈ entries, g.lookup p.1 = some p.2) →
      ooeLoop fuel g entries order = .fuelOut ∨
        ∃ r, ooeLoop fuel g entries order = .ok r := by
  intro entries
  induction entries with
  | nil => exact fun order _ => Or.inr ⟨order, rfl⟩
  | cons entry rest ih =>
    intro order hke
    simp only [ooeLoop]
    rcases (noerrInv hclosed fuel).1 entry order (hke entry (by simp)) with hfo | ⟨r, hr⟩
    · rw [hfo]
      exact Or.inl rfl
    · rw [hr]
      simp only [Outcome.bind_ok]
      exact ih (order ++ r) fun p hp => hke p (by simp [hp])

theorem declared_no_lowering_error {ast : AST} {fuel : Nat}
    {graph : List (String × List String)}
    (hg : depEntries fuel ast = .ok graph)
    (hclosed : ∀ k v, graph.lookup k = some v → ∀ x ∈ v, (graph.lookup x).isSome = true) :
    (getOrderOfExecution fuel ast).isErr = false ∧
    (getOrderOfExecution fuel ast).isCrash = false := by
  unfold getOrderOfExecution
  rw [hg]
  simp only [Outcome.bind_ok]
  have hke : ∀ p ∈ sortByKey (dedupKeys [] graph), graph.lookup p.1 = some p.2 := by
    intro p hp
    have hm := (sortByKey_mem p _).1 hp
    rcases p with ⟨k, v⟩
    exact (dedupKeys_mem graph [] k v hm).2
  rcases noerr_loop hclosed fuel (sortByKey (dedupKeys [] graph)) [] hke with hfo | ⟨r, hr⟩
  · rw [hfo]
    exact ⟨rfl, rfl⟩
  · rw [hr]
    exact ⟨rfl, rfl⟩

end Ir
end CellScript

namespace CellScript

theorem depEntriesAux_key (fuel : Nat) :
    ∀ (nodes : List Node) (m graph : List (String × List String)),
      Ir.depEntriesAux fuel nodes m = .ok graph →
      (∀ x, (m.lookup x).isSome = true → (graph.lookup x).isSome = true) ∧
      ∀ n ∈ nodes, (graph.lookup n.name).isSome = true := by
  intro nodes
  induction nodes with
  | nil =>
    intro m graph h
    simp only [Ir.depEntriesAux] at h
    cases h
    exact ⟨fun x hx => hx, by simp⟩
  | cons n rest ih =>
    intro m graph h
    cases n with
    | param p =>
      simp only [Ir.depEntriesAux] at h
      obtain ⟨hmono, hall⟩ := ih _ _ h
      refine ⟨?_, ?_⟩
      · intro x hx
        apply hmono
        simp only [List.lookup]
        by_cases hxp : x = p
        · subst hxp; simp
        · rw [beq_eq_false_iff_ne.2 hxp]; exact hx
      · intro n hn
        rcases List.mem_cons.1 hn with heq | hn
        · subst heq
          apply hmono
          simp [List.lookup, Node.name]
        · exact hall n hn
    | cell name e =>
      simp only [Ir.depEntriesAux] at h
      cases hus : Ir.nameUses fuel e with
      | ok us =>
        rw [hus] at h
        simp only [Outcome.bind_ok] at h
        obtain ⟨hmono, hall⟩ := ih _ _ h
        refine ⟨?_, ?_⟩
        · intro x hx
          apply hmono
          simp only [List.lookup]
          by_cases hxp : x = name
          · subst hxp; simp
          · rw [beq_eq_false_iff_ne.2 hxp]; exact hx
        · intro n hn
          rcases List.mem_cons.1 hn with heq | hn
          · subst heq
            apply hmono
            simp [List.lookup, Node.name]
          · exact hall n hn
      | err m2 => rw [hus] at h; simp [Outcome.bind] at h
      | crash m2 => rw [hus] at h; simp [Outcome.bind] at h
      | fuelOut => rw [hus] at h; simp [Outcome.bind] at h

theorem depEntries_key {fuel : Nat} {ast : AST} {graph : List (String × List String)}
    (hg : Ir.depEntries fuel ast = .ok graph) :
    ∀ n ∈ ast.nodes, (graph.lookup n.name).isSome = true :=
  (depEntriesAux_key fuel ast.nodes [] graph hg).2

theorem mem_declaredParams {ast : AST} {p : String} :
    p ∈ declaredParams ast ↔ Node.param p ∈ ast.nodes := by
  unfold declaredParams
  rw [List.mem_filterMap]
  constructor
  · rintro ⟨n, hn, hf⟩
    cases n with
    | param q => simp only [Option.some.injEq] at hf; subst hf; exact hn
    | cell nm e => simp at hf
  · intro hp
    exact ⟨Node.param p, hp, rfl⟩

theorem findNode_param :
    ∀ (nodes : List Node), (nodes.map Node.name).Nodup →
      ∀ p : String, Node.param p ∈ nodes →
        nodes.find? (fun n => n.name == p) = some (.param p) := by
  intro nodes
  induction nodes with
  | nil => intro _ p hp; simp at hp
  | cons n rest ih =>
    intro hnodup p hp
    simp only [List.map_cons, List.nodup_cons] at hnodup
    obtain ⟨hnot, hnd⟩ := hnodup
    rcases List.mem_cons.1 hp with heq | hp
    · subst heq
      simp [List.find?, Node.name]
    · have hnp : n.name ≠ p := by
        intro hcontra
        apply hnot
        rw [hcontra]
        exact List.mem_map.2 ⟨.param p, hp, rfl⟩
      simp only [List.find?]
      rw [beq_eq_false_iff_ne.2 hnp]
      exact ih hnd p hp

end CellScript

namespace CellScript
namespace Ir

theorem codeGenLoop_param_mem (fuel : Nat) (ast : AST) :
    ∀ (order : List String) (acc instrs : List Instruction),
      codeGenLoop fuel ast order acc = .ok instrs →
      (∀ i ∈ acc, i ∈ instrs) ∧
      ∀ p, p ∈ order → findNode ast p = some (.param p) →
        Instruction.loadParam p (.cellResult p) ∈ instrs := by
  intro order
  induction order with
  | nil =>
    intro acc instrs h
    simp only [codeGenLoop] at h
    cases h
    exact ⟨fun i hi => hi, by simp⟩
  | cons item rest ih =>
    intro acc instrs h
    simp only [codeGenLoop] at h
    cases hfind : findNode ast item with
    | none => rw [hfind] at h; simp [Outcome.bind] at h
    | some node =>
      rw [hfind] at h
      cases node with
      | param name =>
        simp only at h
        obtain ⟨hsub, hparam⟩ := ih _ _ h
        refine ⟨fun i hi => hsub i (by simp [hi]), ?_⟩
        intro p hp hfp
        rcases List.mem_cons.1 hp with heq | hp
        · subst heq
          rw [hfind] at hfp
          injection hfp with hfp
          injection hfp with hfp
          subst hfp
          exact hsub _ (by simp)
        · exact hparam p hp hfp
      | cell name e =>
        simp only at h
        cases hcg : codeGenExpr fuel 0 acc.length e with
        | ok pr =>
          rw [hcg] at h
          simp only [Outcome.bind_ok] at h
          obtain ⟨sp2, code⟩ := pr
          obtain ⟨hsub, hparam⟩ := ih _ _ h
          refine ⟨fun i hi => hsub i (by simp [hi]), ?_⟩
          intro p hp hfp
          rcases List.mem_cons.1 hp with heq | hp
          · subst heq
            rw [hfind] at hfp
            injection hfp with hfp
            cases hfp
          · exact hparam p hp hfp
        | err m => rw [hcg] at h; simp [Outcome.bind] at h
        | crash m => rw [hcg] at h; simp [Outcome.bind] at h
        | fuelOut => rw [hcg] at h; simp [Outcome.bind] at h

theorem cga_nojump :
    ∀ (args : List Expr),
      (∀ a ∈ args, ∀ fuel sp base sp2 code,
        codeGenExpr fuel sp base a = .ok (sp2, code) →
        ∀ i ∈ code, i.isJump = false) →
      ∀ fuel sp base idx sp2 code,
        codeGenArgs fuel sp base idx args = .ok (sp2, code) →
        ∀ i ∈ code, i.isJump = false := by
  intro args
  induction args with
  | nil =>
    intro _ fuel sp base idx sp2 code h i hi
    cases fuel with
    | zero => simp [codeGenArgs] at h
    | succ f =>
      simp only [codeGenArgs] at h
      cases h
      simp at hi
  | cons a rest ih =>
    intro hall fuel sp base idx sp2 code h i hi
    cases fuel with
    | zero => simp [codeGenArgs] at h
    | succ f =>
      simp only [codeGenArgs] at h
      cases hcg : codeGenExpr f sp base a with
      | ok pr =>
        rw [hcg] at h
        simp only [Outcome.bind_ok] at h
        obtain ⟨sp1, c1⟩ := pr
        cases hca : codeGenArgs f (sp1 + 1) (base + c1.length + 1) (idx + 1) rest with
        | ok pr2 =>
          rw [hca] at h
          simp only [Outcome.bind_ok] at h
          obtain ⟨sp3, c2⟩ := pr2
          cases h
          simp only [List.mem_append, List.mem_singleton] at hi
          rcases hi with (hi | hi) | hi
          · exact hall a (by simp) f sp base sp1 c1 hcg i hi
          · subst hi; rfl
          · exact ih (fun x hx => hall x (by simp [hx])) f (sp1 + 1)
              (base + c1.length + 1) (idx + 1) sp3 c2 hca i hi
        | err m => rw [hca] at h; simp [Outcome.bind] at h
        | crash m => rw [hca] at h; simp [Outcome.bind] at h
        | fuelOut => rw [hca] at h; simp [Outcome.bind] at h
      | err m => rw [hcg] at h; simp [Outcome.bind] at h
      | crash m => rw [hcg] at h; simp [Outcome.bind] at h
      | fuelOut => rw [hcg] at h; simp [Outcome.bind] at h

end Ir
end CellScript

namespace CellScript
namespace Ir

theorem cge_nojump {e : Expr} (hc : CondFree e) :
    ∀ fuel sp base sp2 code,
      codeGenExpr fuel sp base e = .ok (sp2, code) →
      ∀ i ∈ code, i.isJump = false := by
  induction hc with
  | num x =>
    intro fuel sp base sp2 code h i hi
    cases fuel with
    | zero => simp [codeGenExpr] at h
    | succ f =>
      simp only [codeGenExpr] at h
      cases h
      simp only [List.mem_singleton] at hi
      subst hi; rfl
  | ident name =>
    intro fuel sp base sp2 code h i hi
    cases fuel with
    | zero => simp [codeGenExpr] at h
    | succ f =>
      simp only [codeGenExpr] at h
      cases h
      simp only [List.mem_singleton] at hi
      subst hi; rfl
  | call name arguments hargs ihargs =>
    intro fuel sp base sp2 code h i hi
    cases fuel with
    | zero => simp [codeGenExpr] at h
    | succ f =>
      simp only [codeGenExpr] at h
      cases hca : codeGenArgs f sp base 0 arguments with
      | ok pr =>
        rw [hca] at h
        simp only [Outcome.bind_ok] at h
        obtain ⟨sp1, c1⟩ := pr
        cases h
        simp only [List.mem_append, List.mem_singleton] at hi
        rcases hi with hi | hi
        · exact cga_nojump arguments ihargs f sp base 0 sp1 c1 hca i hi
        · subst hi; rfl
      | err m => rw [hca] at h; simp [Outcome.bind] at h
      | crash m => rw [hca] at h; simp [Outcome.bind] at h
      | fuelOut => rw [hca] at h; simp [Outcome.bind] at h
  | add hl hr ihl ihr =>
    intro fuel sp base sp2 code h i hi
    cases fuel with
    | zero => simp [codeGenExpr] at h
    | succ f =>
      simp only [codeGenExpr] at h
      cases h1 : codeGenExpr f sp base _ with
      | ok pr1 =>
        rw [h1] at h
        simp only [Outcome.bind_ok] at h
        obtain ⟨sp1, c1⟩ := pr1
        cases h2 : codeGenExpr f (sp1 + 1) (base + c1.length + 1) _ with
        | ok pr2 =>
          rw [h2] at h
          simp only [Outcome.bind_ok] at h
          obtain ⟨sp3, c2⟩ := pr2
          cases h
          simp only [List.mem_append, List.mem_singleton] at hi
          rcases hi with ((hi | hi) | hi) | hi
          · exact ihl f sp base sp1 c1 h1 i hi
          · subst hi; rfl
          · exact ihr f (sp1 + 1) (base + c1.length + 1) sp3 c2 h2 i hi
          · subst hi; rfl
        | err m => rw [h2] at h; simp [Outcome.bind] at h
        | crash m => rw [h2] at h; simp [Outcome.bind] at h
        | fuelOut => rw [h2] at h; simp [Outcome.bind] at h
      | err m => rw [h1] at h; simp [Outcome.bind] at h
      | crash m => rw [h1] at h; simp [Outcome.bind] at h
      | fuelOut => rw [h1] at h; simp [Outcome.bind] at h
  | mod hl hr ihl ihr =>
    intro fuel sp base sp2 code h i hi
    cases fuel with
    | zero => simp [codeGenExpr] at h
    | succ f =>
      simp only [codeGenExpr] at h
      cases h1 : codeGenExpr f sp base _ with
      | ok pr1 =>
        rw [h1] at h
        simp only [Outcome.bind_ok] at h
        obtain ⟨sp1, c1⟩ := pr1
        cases h2 : codeGenExpr f (sp1 + 1) (base + c1.length + 1) _ with
        | ok pr2 =>
          rw [h2] at h
          simp only [Outcome.bind_ok] at h
          obtain ⟨sp3, c2⟩ := pr2
          cases h
          simp only [List.mem_append, List.mem_singleton] at hi
          rcases hi with ((hi | hi) | hi) | hi
          · exact ihr f sp base sp1 c1 h1 i hi
          · subst hi; rfl
          · exact ihl f (sp1 + 1) (base + c1.length + 1) sp3 c2 h2 i hi
          · subst hi; rfl
        | err m => rw [h2] at h; simp [Outcome.bind] at h
        | crash m => rw [h2] at h; simp [Outcome.bind] at h
        | fuelOut => rw [h2] at h; simp [Outcome.bind] at h
      | err m => rw [h1] at h; simp [Outcome.bind] at h
      | crash m => rw [h1] at h; simp [Outcome.bind] at h
      | fuelOut => rw [h1] at h; simp [Outcome.bind] at h
  | sub hl hr ihl ihr =>
    intro fuel sp base sp2 code h i hi
    cases fuel with
    | zero => simp [codeGenExpr] at h
    | succ f =>
      simp only [codeGenExpr] at h
      cases h1 : codeGenExpr f sp base _ with
      | ok pr1 =>
        rw [h1] at h
        simp only [Outcome.bind_ok] at h
        obtain ⟨sp1, c1⟩ := pr1
        cases h2 : codeGenExpr f (sp1 + 1) (base + c1.length + 1) _ with
        | ok pr2 =>
          rw [h2] at h
          simp only [Outcome.bind_ok] at h
          obtain ⟨sp3, c2⟩ := pr2
          cases h
          simp only [List.mem_append, List.mem_singleton] at hi
          rcases hi with ((hi | hi) | hi) | hi
          · exact ihr f sp base sp1 c1 h1 i hi
          · subst hi; rfl
          · exact ihl f (sp1 + 1) (base + c1.length + 1) sp3 c2 h2 i hi
          · subst hi; rfl
        | err m => rw [h2] at h; simp [Outcome.bind] at h
        | crash m => rw [h2] at h; simp [Outcome.bind] at h
        | fuelOut => rw [h2] at h; simp [Outcome.bind] at h
      | err m => rw [h1] at h; simp [Outcome.bind] at h
      | crash m => rw [h1] at h; simp [Outcome.bind] at h
      | fuelOut => rw [h1] at h; simp [Outcome.bind] at h
  | mul hl hr ihl ihr =>
    intro fuel sp base sp2 code h i hi
    cases fuel with
    | zero => simp [codeGenExpr] at h
    | succ f =>
      simp only [codeGenExpr] at h
      cases h1 : codeGenExpr f sp base _ with
      | ok pr1 =>
        rw [h1] at h
        simp only [Outcome.bind_ok] at h
        obtain ⟨sp1, c1⟩ := pr1
        cases h2 : codeGenExpr f (sp1 + 1) (base + c1.length + 1) _ with
        | ok pr2 =>
          rw [h2] at h
          simp only [Outcome.bind_ok] at h
          obtain ⟨sp3, c2⟩ := pr2
          cases h
          simp only [List.mem_append, List.mem_singleton] at hi
          rcases hi with ((hi | hi) | hi) | hi
          · exact ihl f sp base sp1 c1 h1 i hi
          · subst hi; rfl
          · exact ihr f (sp1 + 1) (base + c1.length + 1) sp3 c2 h2 i hi
          · subst hi; rfl
        | err m => rw [h2] at h; simp [Outcome.bind] at h
        | crash m => rw [h2] at h; simp [Outcome.bind] at h
        | fuelOut => rw [h2] at h; simp [Outcome.bind] at h
      | err m => rw [h1] at h; simp [Outcome.bind] at h
      | crash m => rw [h1] at h; simp [Outcome.bind] at h
      | fuelOut => rw [h1] at h; simp [Outcome.bind] at h
  | div hl hr ihl ihr =>
    intro fuel sp base sp2 code h i hi
    cases fuel with
    | zero => simp [codeGenExpr] at h
    | succ f =>
      simp only [codeGenExpr] at h
      cases h1 : codeGenExpr f sp base _ with
      | ok pr1 =>
        rw [h1] at h
        simp only [Outcome.bind_ok] at h
        obtain ⟨sp1, c1⟩ := pr1
        cases h2 : codeGenExpr f (sp1 + 1) (base + c1.length + 1) _ with
        | ok pr2 =>
          rw [h2] at h
          simp only [Outcome.bind_ok] at h
          obtain ⟨sp3, c2⟩ := pr2
          cases h
          simp only [List.mem_append, List.mem_singleton] at hi
          rcases hi with ((hi | hi) | hi) | hi
          · exact ihr f sp base sp1 c1 h1 i hi
          · subst hi; rfl
          · exact ihl f (sp1 + 1) (base + c1.length + 1) sp3 c2 h2 i hi
          · subst hi; rfl
        | err m => rw [h2] at h; simp [Outcome.bind] at h
        | crash m => rw [h2] at h; simp [Outcome.bind] at h
        | fuelOut => rw [h2] at h; simp [Outcome.bind] at h
      | err m => rw [h1] at h; simp [Outcome.bind] at h
      | crash m => rw [h1] at h; simp [Outcome.bind] at h
      | fuelOut => rw [h1] at h; simp [Outcome.bind] at h

end Ir
end CellScript

namespace CellScript

theorem cgl_nojump (fuel : Nat) (ast : AST) (hast : ast.condFree) :
    ∀ (order : List String) (acc instrs : List Ir.Instruction),
      (∀ i ∈ acc, i.isJump = false) →
      Ir.codeGenLoop fuel ast order acc = .ok instrs →
      ∀ i ∈ instrs, i.isJump = false := by
  intro order
  induction order with
  | nil =>
    intro acc instrs hacc h
    simp only [Ir.codeGenLoop] at h
    cases h
    exact hacc
  | cons item rest ih =>
    intro acc instrs hacc h
    simp only [Ir.codeGenLoop] at h
    cases hfind : Ir.findNode ast item with
    | none => rw [hfind] at h; simp [Outcome.bind] at h
    | some node =>
      rw [hfind] at h
      cases node with
      | param name =>
        simp only at h
        apply ih _ _ ?_ h
        intro i hi
        rcases List.mem_append.1 hi with hi | hi
        · exact hacc i hi
        · simp only [List.mem_singleton] at hi; subst hi; rfl
      | cell name e =>
        simp only at h
        cases hcg : Ir.codeGenExpr fuel 0 acc.length e with
        | ok pr =>
          rw [hcg] at h
          simp only [Outcome.bind_ok] at h
          obtain ⟨sp2, code⟩ := pr
          have hmem : Node.cell name e ∈ ast.nodes := by
            unfold Ir.findNode at hfind
            exact List.mem_of_find?_eq_some hfind
          have hcf : CondFree e := hast (Node.cell name e) hmem name e rfl
          apply ih _ _ ?_ h
          intro i hi
          simp only [List.append_assoc, List.mem_append, List.mem_singleton] at hi
          rcases hi with hi | hi | hi
          · exact hacc i hi
          · exact Ir.cge_nojump hcf fuel 0 acc.length sp2 code hcg i hi
          · subst hi; rfl
        | err m => rw [hcg] at h; simp [Outcome.bind] at h
        | crash m => rw [hcg] at h; simp [Outcome.bind] at h
        | fuelOut => rw [hcg] at h; simp [Outcome.bind] at h

theorem irrun_loadParam_fail {p : String} {params : List (String × ℚ)}
    (hp : params.lookup p = none) :
    ∀ (fuel : Nat) (instrs : List Ir.Instruction) (ip : Nat)
      (s : IrInterpreter.MachineState),
      (∀ i ∈ instrs, i.isJump = false) →
      (∃ j dst, ip ≤ j ∧ instrs.get? j = some (.loadParam p dst)) →
      (IrInterpreter.exec fuel instrs params ip s).isOk = false := by
  intro fuel
  induction fuel with
  | zero => intro instrs ip s _ _; rfl
  | succ f ih =>
    intro instrs ip s hnj hex
    obtain ⟨j, dst, hj, hget⟩ := hex
    cases hip : instrs.get? ip with
    | none =>
      exfalso
      have hlen := List.get?_eq_none.1 hip
      obtain ⟨hlt, _⟩ := List.get?_eq_some.1 hget
      omega
    | some inst =>
      have hji : j = ip → inst = .loadParam p dst := by
        intro hji
        subst hji
        rw [hip] at hget
        injection hget
      cases inst with
      | jmpCompare op arg addr =>
        exact absurd (hnj _ (List.get?_mem hip)) (by simp [Ir.Instruction.isJump])
      | jmp addr =>
        exact absurd (hnj _ (List.get?_mem hip)) (by simp [Ir.Instruction.isJump])
      | nop =>
        simp only [IrInterpreter.exec, hip]
        apply ih instrs (ip + 1) s hnj
        refine ⟨j, dst, ?_, hget⟩
        have hne : j ≠ ip := fun hc => by cases hji hc
        omega
      | add sl =>
        simp only [IrInterpreter.exec, hip]
        cases hr : IrInterpreter.readSlot s sl with
        | ok v =>
          simp only [Outcome.bind_ok]
          apply ih instrs (ip + 1) _ hnj
          refine ⟨j, dst, ?_, hget⟩
          have hne : j ≠ ip := fun hc => by cases hji hc
          omega
        | err m => rfl
        | crash m => rfl
        | fuelOut => rfl
      | sub sl =>
        simp only [IrInterpreter.exec, hip]
        cases hr : IrInterpreter.readSlot s sl with
        | ok v =>
          simp only [Outcome.bind_ok]
          apply ih instrs (ip + 1) _ hnj
          refine ⟨j, dst, ?_, hget⟩
          have hne : j ≠ ip := fun hc => by cases hji hc
          omega
        | err m => rfl
        | crash m => rfl
        | fuelOut => rfl
      | mul sl =>
        simp only [IrInterpreter.exec, hip]
        cases hr : IrInterpreter.readSlot s sl with
        | ok v =>
          simp only [Outcome.bind_ok]
          apply ih instrs (ip + 1) _ hnj
          refine ⟨j, dst, ?_, hget⟩
          have hne : j ≠ ip := fun hc => by cases hji hc
          omega
        | err m => rfl
        | crash m => rfl
        | fuelOut => rfl
      | mod sl =>
        simp only [IrInterpreter.exec, hip]
        cases hr : IrInterpreter.readSlot s sl with
        | ok v =>
          simp only [Outcome.bind_ok]
          apply ih instrs (ip + 1) _ hnj
          refine ⟨j, dst, ?_, hget⟩
          have hne : j ≠ ip := fun hc => by cases hji hc
          omega
        | err m => rfl
        | crash m => rfl
        | fuelOut => rfl
      | div sl =>
        simp only [IrInterpreter.exec, hip]
        cases hr : IrInterpreter.readSlot s sl with
        | ok v =>
          simp only [Outcome.bind_ok]
          apply ih instrs (ip + 1) _ hnj
          refine ⟨j, dst, ?_, hget⟩
          have hne : j ≠ ip := fun hc => by cases hji hc
          omega
        | err m => rfl
        | crash m => rfl
        | fuelOut => rfl
      | mov frm dst2 =>
        simp only [IrInterpreter.exec, hip]
        cases hr : IrInterpreter.readSlot s frm with
        | ok v =>
          simp only [Outcome.bind_ok]
          cases hw : IrInterpreter.writeSlot s v dst2 with
          | ok s2 =>
            simp only [Outcome.bind_ok]
            apply ih instrs (ip + 1) s2 hnj
            refine ⟨j, dst, ?_, hget⟩
            have hne : j ≠ ip := fun hc => by cases hji hc
            omega
          | err m => rfl
          | crash m => rfl
          | fuelOut => rfl
        | err m => rfl
        | crash m => rfl
        | fuelOut => rfl
      | loadParam q dst2 =>
        simp only [IrInterpreter.exec, hip]
        cases hq : params.lookup q with
        | none => rfl
        | some v =>
          show ((IrInterpreter.writeSlot s v dst2).bind fun s2 =>
            IrInterpreter.exec f instrs params (ip + 1) s2).isOk = false
          have hqp : q ≠ p := by
            intro hc
            subst hc
            rw [hq] at hp
            cases hp
          cases hw : IrInterpreter.writeSlot s v dst2 with
          | ok s2 =>
            simp only [Outcome.bind_ok]
            apply ih instrs (ip + 1) s2 hnj
            refine ⟨j, dst, ?_, hget⟩
            have hne : j ≠ ip := by
              intro hc
              have := hji hc
              injection this with h1 h2
              exact hqp h1
            omega
          | err m => rfl
          | crash m => rfl
          | fuelOut => rfl
      | call fnName argStart =>
        simp only [IrInterpreter.exec, hip]
        have hne : j ≠ ip := fun hc => by cases hji hc
        split
        · apply ih instrs (ip + 1) _ hnj
          exact ⟨j, dst, by omega, hget⟩
        · cases hr : IrInterpreter.readSlot s (.var argStart) with
          | ok v =>
            simp only [Outcome.bind_ok]
            apply ih instrs (ip + 1) _ hnj
            exact ⟨j, dst, by omega, hget⟩
          | err m => rfl
          | crash m => rfl
          | fuelOut => rfl
        · rfl

end CellScript

namespace CellScript

theorem codeGen_inv {fuel : Nat} {ast : AST} {instrs : List Ir.Instruction}
    (h : Ir.codeGen fuel ast = .ok instrs) :
    ∃ order, Ir.getOrderOfExecution fuel ast = .ok order ∧
      Ir.codeGenLoop fuel ast order [] = .ok instrs := by
  unfold Ir.codeGen at h
  cases ho : Ir.getOrderOfExecution fuel ast with
  | ok order =>
    rw [ho] at h
    simp only [Outcome.bind_ok] at h
    exact ⟨order, rfl, h⟩
  | err m => rw [ho] at h; simp [Outcome.bind] at h
  | crash m => rw [ho] at h; simp [Outcome.bind] at h
  | fuelOut => rw [ho] at h; simp [Outcome.bind] at h

theorem param_unbound_eval_fails {ast : AST} {fuel : Nat}
    {instrs : List Ir.Instruction}
    (hcf : ast.condFree) (hnodup : (declaredNames ast).Nodup)
    (hcg : Ir.codeGen fuel ast = .ok instrs)
    {p : String} (hp : p ∈ declaredParams ast)
    {params : List (String × ℚ)} (hlook : params.lookup p = none)
    (fuel2 : Nat) (rng : List ℚ) :
    (IrInterpreter.run fuel2 instrs params rng).isOk = false := by
  obtain ⟨order, ho, hloop⟩ := codeGen_inv hcg
  have ho2 := ho
  unfold Ir.getOrderOfExecution at ho2
  cases hg : Ir.depEntries fuel ast with
  | ok graph =>
    rw [hg] at ho2
    have hpm : Node.param p ∈ ast.nodes := mem_declaredParams.1 hp
    have hkey : (graph.lookup p).isSome = true := depEntries_key hg (Node.param p) hpm
    obtain ⟨v, hv⟩ := Option.isSome_iff_exists.1 hkey
    have horder : p ∈ order :=
      (getOrder_supported fuel ast graph order hg ho).2 p v hv
    have hfind : Ir.findNode ast p = some (.param p) := by
      unfold Ir.findNode
      exact findNode_param ast.nodes hnodup p hpm
    have hmem : Ir.Instruction.loadParam p (.cellResult p) ∈ instrs :=
      (Ir.codeGenLoop_param_mem fuel ast order [] instrs hloop).2 p horder hfind
    have hnj : ∀ i ∈ instrs, i.isJump = false :=
      cgl_nojump fuel ast hcf order [] instrs (by simp) hloop
    obtain ⟨j, hj⟩ := List.get?_of_mem hmem
    unfold IrInterpreter.run
    exact irrun_loadParam_fail hlook fuel2 instrs 0 _ hnj
      ⟨j, .cellResult p, Nat.zero_le _, hj⟩
  | err m => rw [hg] at ho2; simp [Outcome.bind] at ho2
  | crash m => rw [hg] at ho2; simp [Outcome.bind] at ho2
  | fuelOut => rw [hg] at ho2; simp [Outcome.bind] at ho2

end CellScript

namespace CellScript

theorem lookup_mem {α β : Type} [BEq α] [LawfulBEq α] :
    ∀ {l : List (α × β)} {k : α} {v : β}, l.lookup k = some v → (k, v) ∈ l := by
  intro l
  induction l with
  | nil => intro k v h; simp [List.lookup] at h
  | cons p rest ih =>
    intro k v h
    obtain ⟨k0, v0⟩ := p
    simp only [List.lookup] at h
    cases hbe : k == k0 with
    | true =>
      rw [hbe] at h
      injection h with h
      subst h
      have := eq_of_beq hbe
      subst this
      simp
    | false =>
      rw [hbe] at h
      exact List.mem_cons.2 (Or.inr (ih h))

/-- C6, counterexample to the evaluation direction of the claim.  For
`cell a: foo()` lowering succeeds and there is no declared parameter at all
(so every declared parameter is vacuously bound), yet every run of the IR
interpreter fails: the `Call` arm of `ir_interpreter.rs` errors on the
unknown built-in `foo`.  Evaluating lowered IR can therefore fail even when
no declared parameter lacks a binding, refuting the claimed `iff`. -/
theorem c6_eval_fails_without_unbound_param :
    Ir.codeGen 99 fooProg =
      .ok [.call "foo" 0, .mov .accumulator (.cellResult "a")] ∧
    declaredParams fooProg = [] ∧
    ∀ (params : List (String × ℚ)) (rng : List ℚ),
      IrInterpreter.run 99 [.call "foo" 0, .mov .accumulator (.cellResult "a")]
        params rng = .err "undefined function foo" :=
  ⟨of_decide_eq_true (by with_unfolding_all rfl), rfl, fun params rng => rfl⟩

/-- C6.  The claim reads: lowering fails iff the AST references an
undeclared name, and evaluating lowered IR fails iff some declared
parameter has no binding.  What actually holds of the code: (a) if the
dependency map pairs some name with a dependency that is not itself a key —
i.e. some cell expression references an undeclared name — then lowering
never succeeds (the `unwrap` in `update_order_in_subset` makes this a panic,
not a clean error); (b) if every dependency of every entry is itself a key,
the order-of-execution computation — the only stage of lowering that
resolves names — returns neither an error nor a panic; (c) for a
conditional-free program with pairwise-distinct declared names whose
lowering succeeded, a declared parameter missing from the parameter map
makes every IR-interpreter run fail, because lowering emitted a `LoadParam`
for it and straight-line execution must reach it.  The converse of the
evaluation direction is refuted separately: evaluation can also fail on an
unknown built-in with all parameters bound. -/
theorem c6_scope_soundness :
    (∀ (ast : AST) (fuel : Nat) (graph : List (String × List String))
       (nm d : String) (deps : List String),
       Ir.depEntries fuel ast = .ok graph → graph.lookup nm = some deps →
       d ∈ deps → graph.lookup d = none →
       (Ir.codeGen fuel ast).isOk = false) ∧
    (∀ (ast : AST) (fuel : Nat) (graph : List (String × List String)),
       Ir.depEntries fuel ast = .ok graph →
       (∀ e ∈ graph, ∀ x ∈ e.2, (graph.lookup x).isSome = true) →
       (Ir.getOrderOfExecution fuel ast).isErr = false ∧
       (Ir.getOrderOfExecution fuel ast).isCrash = false) ∧
    (∀ (ast : AST) (fuel : Nat) (instrs : List Ir.Instruction) (p : String)
       (params : List (String × ℚ)) (fuel2 : Nat) (rng : List ℚ),
       ast.condFree → (declaredNames ast).Nodup →
       Ir.codeGen fuel ast = .ok instrs → p ∈ declaredParams ast →
       params.lookup p = none →
       (IrInterpreter.run fuel2 instrs params rng).isOk = false) :=
  ⟨fun _ _ _ _ _ _ hg hl hd hn => Ir.undeclared_lowering_fails hg hl hd hn,
   fun _ _ _ hg hent =>
     Ir.declared_no_lowering_error hg
       (fun k v hl x hx =>
         hent (k, v) (lookup_mem hl) x hx),
   fun _ _ _ _ _ fuel2 rng h1 h2 h3 h4 h5 =>
     param_unbound_eval_fails h1 h2 h3 h4 h5 fuel2 rng⟩

/-- Witness for C6: each conjunct applied at a concrete program —
(a) `cell a: b` (undeclared `b`), (b) the five-node example program, whose
dependency map is closed, (c) `param p` with an empty parameter map. -/
theorem c6_scope_soundness_witness :
    (Ir.codeGen 99 undeclaredProg).isOk = false ∧
    ((Ir.getOrderOfExecution 99 scenario6Prog).isErr = false ∧
      (Ir.getOrderOfExecution 99 scenario6Prog).isCrash = false) ∧
    (IrInterpreter.run 7 [.loadParam "p" (.cellResult "p")] [] []).isOk = false :=
  ⟨c6_scope_soundness.1 undeclaredProg 99 [("a", ["b"])] "a" "b" ["b"]
      (of_decide_eq_true (by with_unfolding_all rfl)) rfl (by decide) rfl,
   c6_scope_soundness.2.1 scenario6Prog 99
      [("test", ["p1", "p2", "p2", "a", "p1", "p2"]), ("a", ["c"]),
       ("c", ["p1"]), ("p2", []), ("p1", [])]
      (of_decide_eq_true (by with_unfolding_all rfl)) (by decide),
   c6_scope_soundness.2.2 paramProg 99 [.loadParam "p" (.cellResult "p")] "p"
      [] 7 []
      (by
        intro n hn nm e he
        simp only [paramProg, List.mem_singleton] at hn
        subst hn
        exact Node.noConfusion he)
      (by decide)
      (of_decide_eq_true (by with_unfolding_all rfl))
      (by decide) rfl⟩

end CellScript
